import Mathlib

/-
Verification of the tagstash library: a shallow embedding of the record codec
(readAll/writeAll over keyval records), the blob-cache-backed tag cache, and the
matching engine (getAll / Get / GetAll / Set), with theorems checking the
specified ranking, error-handling and invariant properties against it.

Modelling conventions:
- Go `int` is modelled as `Int` (the claims under scrutiny do not involve
  overflow behaviour).
- The keyval wire format is modelled at the record level (a record is a list of
  key tokens plus one value token); per the spec the concrete delimiter scheme
  of the external keyval package is free as long as records round-trip.
- The external blob cache (package forget) is modelled as an association list
  from tag to the stored record sequence plus an admission predicate: the
  oversize/admission decision is wholly delegated to the external cache, which
  the model reflects by keeping that decision abstract per key.
- Fallible Go functions returning `(T, error)` become `Except Err T`; mutation
  of a collaborator is explicit state passing, and operations that can fail
  midway return the state reached so far alongside the error.
-/

namespace Tagstash

/-- Entry is a value-tag association (tagstash Entry struct). The fields
`requestTagMatch` and `requestIndexDelta` are the transient query-scoped
fields computed during matching; Go zero-initializes them. -/
structure Entry where
  value : String
  tag : String
  tagIndex : Int
  requestTagMatch : Int := 0
  requestIndexDelta : Int := 0
  deriving DecidableEq, Repr

/-- Error values of the model. `damagedCacheData` is ErrDamagedCacheData,
`numError s` is the error `strconv.Atoi` returns for the non-numeric token `s`,
`failedToCacheEntry` is ErrFailedToCacheEntry, and `external s` stands for an
opaque collaborator error (such as the forged error of the mock storage). -/
inductive Err where
  | damagedCacheData
  | numError (s : String)
  | failedToCacheEntry
  | external (s : String)
  deriving DecidableEq, Repr

/-- Value of a decimal digit character, `none` for non-digits; this is the
per-character digit check of Go's `strconv.ParseInt` with base 10. -/
def digitVal (c : Char) : Option Nat :=
  if '0' ≤ c ∧ c ≤ '9' then some (c.toNat - 48) else none

/-- Digit-run accumulator of `strconv.ParseInt`: folds decimal digits onto an
accumulator, failing on the first non-digit character. -/
def parseDigitsFrom (acc : Nat) : List Char → Option Nat
  | [] => some acc
  | c :: cs =>
    match digitVal c with
    | some d => parseDigitsFrom (acc * 10 + d) cs
    | none => none

/-- Parse of a non-empty decimal digit run (empty input is a syntax error in
`strconv.ParseInt`). -/
def parseDigits : List Char → Option Nat
  | [] => none
  | c :: cs => parseDigitsFrom 0 (c :: cs)

/-- Model of `strconv.Atoi`: an optional sign followed by a non-empty run of
decimal digits; any other shape is a syntax error (`none`). The model uses
unbounded integers, so the int64 range check of Go is not represented. -/
def atoi (s : String) : Option Int :=
  match s.data with
  | [] => none
  | c :: cs =>
    if c = '+' then (parseDigits cs).map Int.ofNat
    else if c = '-' then (parseDigits cs).map (fun n => -(Int.ofNat n))
    else (parseDigits (c :: cs)).map Int.ofNat

/-- Decimal digit character for `n % 10`. -/
def digitChar (n : Nat) : Char := Char.ofNat (48 + n % 10)

/-- Most-significant-first decimal digit expansion prepended to `acc`; this is
the digit loop of Go's decimal integer formatting. -/
def natToDecimal (n : Nat) (acc : List Char) : List Char :=
  if n < 10 then digitChar n :: acc
  else natToDecimal (n / 10) (digitChar n :: acc)
decreasing_by exact Nat.div_lt_self (by omega) (by omega)

/-- Model of `strconv.Itoa`: decimal representation with a leading minus sign
for negative numbers. -/
def itoa (i : Int) : String :=
  if i < 0 then ⟨'-' :: natToDecimal i.natAbs []⟩ else ⟨natToDecimal i.natAbs []⟩

/-- Number of decimal digits `natToDecimal` produces. -/
def decLen (n : Nat) : Nat :=
  if n < 10 then 1 else decLen (n / 10) + 1
decreasing_by exact Nat.div_lt_self (by omega) (by omega)

theorem digitVal_digitChar (n : Nat) : digitVal (digitChar n) = some (n % 10) := by
  have h : n % 10 < 10 := Nat.mod_lt _ (by omega)
  unfold digitChar
  generalize n % 10 = k at h ⊢
  interval_cases k <;> decide

theorem digitVal_ne_sign {c : Char} {k : Nat} (h : digitVal c = some k) :
    c ≠ '+' ∧ c ≠ '-' := by
  unfold digitVal at h
  split at h
  · rename_i hc
    constructor <;> rintro rfl <;> revert hc <;> decide
  · exact absurd h (by simp)

theorem parseDigitsFrom_natToDecimal (n : Nat) : ∀ (acc : Nat) (cs : List Char),
    parseDigitsFrom acc (natToDecimal n cs) =
      parseDigitsFrom (acc * 10 ^ decLen n + n) cs := by
  induction n using Nat.strong_induction_on with
  | _ n ih =>
    intro acc cs
    by_cases h : n < 10
    · rw [natToDecimal, if_pos h, decLen, if_pos h]
      simp only [parseDigitsFrom, digitVal_digitChar, Nat.mod_eq_of_lt h, pow_one]
    · rw [natToDecimal, if_neg h, decLen, if_neg h]
      rw [ih (n / 10) (Nat.div_lt_self (by omega) (by omega)) acc]
      simp only [parseDigitsFrom, digitVal_digitChar]
      congr 1
      have hdm := Nat.div_add_mod n 10
      rw [pow_succ]
      ring_nf
      omega

theorem natToDecimal_head (n : Nat) : ∀ (cs : List Char),
    ∃ d rest, natToDecimal n cs = digitChar d :: rest := by
  induction n using Nat.strong_induction_on with
  | _ n ih =>
    intro cs
    by_cases h : n < 10
    · exact ⟨n, cs, by rw [natToDecimal, if_pos h]⟩
    · rw [natToDecimal, if_neg h]
      exact ih (n / 10) (Nat.div_lt_self (by omega) (by omega)) _

theorem parseDigits_natToDecimal (n : Nat) : parseDigits (natToDecimal n []) = some n := by
  obtain ⟨d, rest, hd⟩ := natToDecimal_head n []
  rw [hd]
  show parseDigitsFrom 0 (digitChar d :: rest) = some n
  rw [← hd, parseDigitsFrom_natToDecimal]
  simp [parseDigitsFrom]

theorem atoi_mk_cons (c : Char) (cs : List Char) :
    atoi ⟨c :: cs⟩ =
      (if c = '+' then (parseDigits cs).map Int.ofNat
       else if c = '-' then (parseDigits cs).map (fun n => -(Int.ofNat n))
       else (parseDigits (c :: cs)).map Int.ofNat) := rfl

theorem atoi_itoa (i : Int) : atoi (itoa i) = some i := by
  unfold itoa
  by_cases h : i < 0
  · rw [if_pos h, atoi_mk_cons, if_neg (by decide), if_pos rfl, parseDigits_natToDecimal]
    simp only [Option.map_some']
    congr 1
    simp only [Int.ofNat_eq_coe]
    omega
  · rw [if_neg h]
    obtain ⟨d, rest, hd⟩ := natToDecimal_head i.natAbs []
    have hdig : digitVal (digitChar d) = some (d % 10) := digitVal_digitChar d
    obtain ⟨hplus, hminus⟩ := digitVal_ne_sign hdig
    rw [hd, atoi_mk_cons, if_neg hplus, if_neg hminus, ← hd, parseDigits_natToDecimal]
    simp only [Option.map_some']
    congr 1
    simp only [Int.ofNat_eq_coe]
    omega

/-- Record of the keyval wire format: a list of key tokens and one value
token. `writeAll` emits one record per entry, with the entry value as its only
key token and the decimal tag index as the value token. -/
structure KVRecord where
  key : List String
  val : String
  deriving DecidableEq, Repr

/-- Model of `readAll` (the record decoder): for each record, parse the
position token with `strconv.Atoi` (its parse error aborts decoding), then
require the key to hold exactly one token (otherwise ErrDamagedCacheData);
the first malformed record aborts the whole decode, so no partial entry list
is ever produced. -/
def readAllRecords (tag : String) : List KVRecord → Except Err (List Entry)
  | [] => .ok []
  | r :: rs =>
    match atoi r.val with
    | none => .error (.numError r.val)
    | some tagIndex =>
      match r.key with
      | [v] =>
        (readAllRecords tag rs).map
          (fun es => { value := v, tag := tag, tagIndex := tagIndex } :: es)
      | _ => .error .damagedCacheData

/-- Model of `writeAll` (the record encoder): one record per entry, key
`[e.Value]`, value token `strconv.Itoa e.TagIndex`. In-memory encoding cannot
hit a sink error, so the model is total. -/
def writeAllRecords (es : List Entry) : List KVRecord :=
  es.map (fun e => { key := [e.value], val := itoa e.tagIndex })

/-- Projection of an entry to the content the codec persists, re-read under
tag `tag`: the transient query-scoped fields are not serialized. -/
def persisted (tag : String) (e : Entry) : Entry :=
  { value := e.value, tag := tag, tagIndex := e.tagIndex }

theorem readAllRecords_writeAllRecords (tag : String) (es : List Entry) :
    readAllRecords tag (writeAllRecords es) = .ok (es.map (persisted tag)) := by
  induction es with
  | nil => rfl
  | cons e rest ih =>
    simp only [writeAllRecords, List.map_cons] at ih ⊢
    show readAllRecords tag ({ key := [e.value], val := itoa e.tagIndex } :: _) = _
    simp only [readAllRecords, atoi_itoa, ih, Except.map, persisted]

theorem readAllRecords_append (tag : String) (a b : List KVRecord) :
    readAllRecords tag (a ++ b) =
      (readAllRecords tag a).bind
        (fun ea => (readAllRecords tag b).map (fun eb => ea ++ eb)) := by
  induction a with
  | nil =>
    simp only [List.nil_append, readAllRecords]
    cases readAllRecords tag b <;> simp [Except.bind, Except.map]
  | cons r rs ih =>
    simp only [List.cons_append, readAllRecords]
    cases atoi r.val with
    | none => rfl
    | some tagIndex =>
      cases hk : r.key with
      | nil => rfl
      | cons v vs =>
        cases vs with
        | cons v₂ vs₂ => rfl
        | nil =>
          simp only [List.append_eq] at ih ⊢
          rw [ih]
          cases readAllRecords tag rs with
          | error e => rfl
          | ok ea =>
            cases readAllRecords tag b with
            | error e => rfl
            | ok eb => simp [Except.bind, Except.map]

/-- BlobCache models the external bounded byte cache (package forget) that
backs the tag cache: an association list from key (tag) to the stored record
sequence, plus the external admission decision `admits` that `forget.Set`
makes for a key (capacity and oversize handling are delegated wholly to the
external cache, so the model keeps that decision abstract). -/
structure BlobCache where
  data : List (String × List KVRecord)
  admits : String → Bool

/-- Lookup of a key in the blob cache (`forget.Get`): the stored record
sequence when present. -/
def blobGet (c : BlobCache) (tag : String) : Option (List KVRecord) :=
  (c.data.find? (fun p => p.1 = tag)).map (fun p => p.2)

/-- Unconditional replacement of a key's content in the blob cache. -/
def blobSet (c : BlobCache) (tag : String) (recs : List KVRecord) : BlobCache :=
  { c with data := (tag, recs) :: c.data.filter (fun p => ¬ p.1 = tag) }

/-- Removal of a key from the blob cache (`forget.Delete`). -/
def blobDelete (c : BlobCache) (tag : String) : BlobCache :=
  { c with data := c.data.filter (fun p => ¬ p.1 = tag) }

/-- Commit step of a tag-cache write: `forget.Set` admission followed by
`writeAll`. Refused admission surfaces as ErrFailedToCacheEntry and leaves
the cache unchanged. -/
def writeBack (c : BlobCache) (tag : String) (entries : List Entry) :
    Except Err Unit × BlobCache :=
  if c.admits tag then (.ok (), blobSet c tag (writeAllRecords entries))
  else (.error .failedToCacheEntry, c)

/-- Model of `cache.withTagEntries`: read the tag's current record list
(empty when absent), decode it — a decode failure aborts the operation before
any write, leaving the cached bytes unchanged — apply `op`, then re-encode and
write back. -/
def withTagEntries (c : BlobCache) (tag : String) (op : List Entry → List Entry) :
    Except Err Unit × BlobCache :=
  match blobGet c tag with
  | some recs =>
    match readAllRecords tag recs with
    | .error e => (.error e, c)
    | .ok entries => writeBack c tag (op entries)
  | none => writeBack c tag (op [])

/-- List operation of `cache.Set`: overwrite the tag index of the first entry
holding the value, or append the entry when its value is absent. -/
def cacheSetOp (e : Entry) : List Entry → List Entry
  | [] => [e]
  | ei :: rest =>
    if ei.value = e.value then { ei with tagIndex := e.tagIndex } :: rest
    else ei :: cacheSetOp e rest

/-- List operation of `cache.Remove`: drop the first entry holding the value;
absence is a no-op. -/
def cacheRemoveOp (e : Entry) : List Entry → List Entry
  | [] => []
  | ei :: rest => if ei.value = e.value then rest else ei :: cacheRemoveOp e rest

/-- Model of `cache.Get`: for each queried tag, an absent tag contributes
nothing; a present record list is decoded, and the first decode failure aborts
the whole read. -/
def cacheGet (c : BlobCache) : List String → Except Err (List Entry)
  | [] => .ok []
  | t :: rest =>
    match blobGet c t with
    | none => cacheGet c rest
    | some recs =>
      (readAllRecords t recs).bind
        (fun tagEntries => (cacheGet c rest).map (fun more => tagEntries ++ more))

/-- Model of `cache.Set`: read-modify-write on the entry's tag via
`withTagEntries`. -/
def cacheSet (c : BlobCache) (e : Entry) : Except Err Unit × BlobCache :=
  withTagEntries c e.tag (cacheSetOp e)

/-- Model of `cache.Remove`. -/
def cacheRemove (c : BlobCache) (e : Entry) : Except Err Unit × BlobCache :=
  withTagEntries c e.tag (cacheRemoveOp e)

/-- Model of `cache.Delete`: unconditional eviction, always succeeds. -/
def cacheDelete (c : BlobCache) (tag : String) : Except Err Unit × BlobCache :=
  (.ok (), blobDelete c tag)

/-- Model of `setRequestIndex` starting at query position `i`: for every query
tag in turn, every entry carrying that tag gets `requestIndexDelta` set to the
absolute difference between the tag's query position and the entry's stored
tag index; a query tag for which no entry carries the tag is collected into
the not-found list (in query order). -/
def setRequestIndexFrom (i : Nat) : List String → List Entry → List Entry × List String
  | [], es => (es, [])
  | t :: rest, es =>
    let es' := es.map (fun e =>
      if e.tag = t then { e with requestIndexDelta := ((i : Int) - e.tagIndex).natAbs } else e)
    let found := es.any (fun e => e.tag = t)
    let p := setRequestIndexFrom (i + 1) rest es'
    if found then p else (p.1, t :: p.2)

/-- Model of `setRequestIndex` (part_001:144-165). -/
def setRequestIndex (tags : List String) (es : List Entry) : List Entry × List String :=
  setRequestIndexFrom 0 tags es

/-- Accumulation step of `uniqueValues`: bump the match count of the unique
representative of `v` and add `d` to its accumulated index delta. -/
def bumpValue (v : String) (d : Int) : List Entry → List Entry
  | [] => []
  | u :: rest =>
    if u.value = v then
      { u with requestTagMatch := u.requestTagMatch + 1,
               requestIndexDelta := u.requestIndexDelta + d } :: rest
    else u :: bumpValue v d rest

/-- Worker of `uniqueValues` with the accumulated unique list explicit. -/
def uniqueValuesAux (u : List Entry) : List Entry → List Entry
  | [] => u
  | e :: rest =>
    if u.any (fun x => x.value = e.value) then
      uniqueValuesAux (bumpValue e.value e.requestIndexDelta u) rest
    else uniqueValuesAux (u ++ [{ e with requestTagMatch := 1 }]) rest

/-- Model of `uniqueValues` (part_001:167-183): deduplicate by value keeping
the first occurrence, whose match count counts the occurrences of the value
and whose index delta accumulates their deltas. -/
def uniqueValues (es : List Entry) : List Entry :=
  uniqueValuesAux [] es

/-- Model of `mapEntries`: project entries to their values. -/
def mapEntries (es : List Entry) : List String :=
  es.map (fun e => e.value)

/-- Model of `entrySort.Less` (part_001:113-121): more matched tags first;
on equal match counts, smaller accumulated index delta first. -/
def entryLess (l r : Entry) : Bool :=
  if l.requestTagMatch = r.requestTagMatch then
    decide (l.requestIndexDelta < r.requestIndexDelta)
  else decide (l.requestTagMatch > r.requestTagMatch)

/-- Model of `sort.Sort(entrySort{entries})`. Go's `sort.Sort` contract is
that the result is a permutation of the input that is nondecreasing with
respect to `Less`; stability is explicitly not guaranteed by it. The model
realizes that contract with `mergeSort` over the complement of `Less`. -/
def sortEntries (es : List Entry) : List Entry :=
  es.mergeSort (fun a b => ! entryLess b a)

/-- Model of `mockStorage.Get` (mockstorage_test.go:21-36), the repository's
reference semantics for `Storage.Get`: every stored entry is returned once
per occurrence of its tag in the queried list, in storage order. -/
def storageGet (tags : List String) : List Entry → List Entry
  | [] => []
  | e :: rest => (tags.filter (fun t => t = e.tag)).map (fun _ => e) ++ storageGet tags rest

/-- Modelled from the spec: `storage.Set` (storage.go:158-161) executes the
generated `insert_entry` SQL command, whose source .sql files are not present;
per the spec it is an idempotent upsert on the (value, tag) pair that
overwrites the stored tag index, which is also the behaviour of
`mockStorage.Set` (mockstorage_test.go:38-52): overwrite the tag index of the
first entry with the same tag and value, or append the entry. -/
def storageSet (e : Entry) : List Entry → List Entry
  | [] => [e]
  | ei :: rest =>
    if ei.tag = e.tag ∧ ei.value = e.value then { ei with tagIndex := e.tagIndex } :: rest
    else ei :: storageSet e rest

/-- Warm-up loop of `getAll` (part_001:207-211): write each storage-fetched
entry into the tag cache, aborting with the first failing cache `Set`. -/
def warmUp {σ : Type} (cSet : σ → Entry → Except Err Unit × σ) :
    σ → List Entry → Except Err Unit × σ
  | cs, [] => (.ok (), cs)
  | cs, e :: rest =>
    match cSet cs e with
    | (.ok _, cs') => warmUp cSet cs' rest
    | (.error err, cs') => (.error err, cs')

/-- Model of `TagStash.getAll` (part_001:194-219), parametric in the cache and
storage collaborators (they are interface values in the source): read the
cache, compute index deltas and the not-cached tags, fetch those from storage,
warm the cache up with every fetched entry — any failure aborting the call
with that error — then assign deltas to the fetched entries, concatenate,
deduplicate and sort. -/
def getAllW {σc σs : Type}
    (cGet : σc → List String → Except Err (List Entry))
    (cSet : σc → Entry → Except Err Unit × σc)
    (sGet : σs → List String → Except Err (List Entry))
    (tags : List String) (cs : σc) (ss : σs) :
    Except Err (List Entry) × σc :=
  match cGet cs tags with
  | .error e => (.error e, cs)
  | .ok entries0 =>
    let p := setRequestIndex tags entries0
    match sGet ss p.2 with
    | .error e => (.error e, cs)
    | .ok stored0 =>
      match warmUp cSet cs stored0 with
      | (.error err, cs') => (.error err, cs')
      | (.ok _, cs') =>
        let stored := (setRequestIndex tags stored0).1
        (.ok (sortEntries (uniqueValues (p.1 ++ stored))), cs')

/-- Loop of `TagStash.Set` (part_001:262-280), parametric in the collaborators
and carrying the running tag position: for the tag at position `i`, upsert
Entry{value, tag, i} into storage first and into the cache second, aborting
with the first error; earlier iterations' effects stay in the returned
states. -/
def setLoopFrom {σs σc : Type}
    (sSet : σs → Entry → Except Err Unit × σs)
    (cSet : σc → Entry → Except Err Unit × σc)
    (value : String) : Nat → List String → σs → σc → Except Err Unit × σs × σc
  | _, [], ss, cs => (.ok (), ss, cs)
  | i, t :: rest, ss, cs =>
    match sSet ss { value := value, tag := t, tagIndex := (i : Int) } with
    | (.error e, ss') => (.error e, ss', cs)
    | (.ok _, ss') =>
      match cSet cs { value := value, tag := t, tagIndex := (i : Int) } with
      | (.error e, cs') => (.error e, ss', cs')
      | (.ok _, cs') => setLoopFrom sSet cSet value (i + 1) rest ss' cs'

/-- Model of `TagStash.Set` (part_001:262-280). -/
def tagStashSetW {σs σc : Type}
    (sSet : σs → Entry → Except Err Unit × σs)
    (cSet : σc → Entry → Except Err Unit × σc)
    (value : String) (tags : List String) (ss : σs) (cs : σc) :
    Except Err Unit × σs × σc :=
  setLoopFrom sSet cSet value 0 tags ss cs

/-- Concrete TagStash state: the blob-cache-backed tag cache together with the
storage contents (the mock storage semantics of the repository's tests). -/
structure TS where
  cache : BlobCache
  storage : List Entry

/-- Storage `Get` collaborator of the concrete instantiation; the mock only
fails when a failure is forged, so the concrete model's storage reads
succeed. -/
def storageGetE (ss : List Entry) (tags : List String) : Except Err (List Entry) :=
  .ok (storageGet tags ss)

/-- Concrete `getAll`. -/
def tsGetAll (s : TS) (tags : List String) : Except Err (List Entry) × BlobCache :=
  getAllW cacheGet cacheSet storageGetE tags s.cache s.storage

/-- Model of `TagStash.GetAll` (part_001:241-248): values of the ranked
entries. -/
def tsGetAllValues (s : TS) (tags : List String) : Except Err (List String) :=
  match tsGetAll s tags with
  | (.error e, _) => .error e
  | (.ok entries, _) => .ok (mapEntries entries)

/-- Model of `TagStash.Get` (part_001:225-237): the first ranked value, or the
empty string when there is no match. -/
def tsGetValue (s : TS) (tags : List String) : Except Err String :=
  match tsGetAll s tags with
  | (.error e, _) => .error e
  | (.ok entries, _) =>
    match entries with
    | [] => .ok ""
    | e :: _ => .ok ((mapEntries [e]).headD "")

/-- DamagedData class of the spec's error taxonomy (§7): cache content that is
undecodable or structurally invalid. The code realizes this class with
ErrDamagedCacheData for a malformed token count and with the strconv syntax
error for an unparsable position token; refused admission and collaborator
errors are outside the class. -/
def isDamagedData : Err → Bool
  | .damagedCacheData => true
  | .numError _ => true
  | .failedToCacheEntry => false
  | .external _ => false

/-- Decode error a given malformed record produces: the Atoi syntax error when
its position token does not parse (that check runs first), ErrDamagedCacheData
otherwise. -/
def recordError (r : KVRecord) : Err :=
  match atoi r.val with
  | none => .numError r.val
  | some _ => .damagedCacheData

theorem readAllRecords_error_isDamagedData (tag : String) (recs : List KVRecord) (err : Err)
    (h : readAllRecords tag recs = .error err) : isDamagedData err = true := by
  induction recs with
  | nil => exact absurd h (by simp [readAllRecords])
  | cons r rs ih =>
    rw [readAllRecords] at h
    cases hv : atoi r.val with
    | none =>
      rw [hv] at h
      cases h
      rfl
    | some tagIndex =>
      rw [hv] at h
      match hk : r.key with
      | [v] =>
        rw [hk] at h
        simp only [] at h
        cases hrec : readAllRecords tag rs with
        | error e =>
          rw [hrec] at h
          cases h
          exact ih hrec
        | ok es => rw [hrec] at h; cases h
      | [] => rw [hk] at h; cases h; rfl
      | v₁ :: v₂ :: vs => rw [hk] at h; cases h; rfl

/-- Claim C5: decoding the byte sequence produced by encoding a well-formed
record list reproduces the list's content — the same value, tag and tag index
per record, in order. Well-formedness is intrinsic here: an entry's single
string value always encodes as exactly one token and its integer tag index
always formats as a parsable integer token. -/
theorem claim5_decode_encode_roundtrip (tag : String) (es : List Entry)
    (htag : ∀ e ∈ es, e.tag = tag) :
    readAllRecords tag (writeAllRecords es) =
      .ok (es.map (fun e => { value := e.value, tag := e.tag, tagIndex := e.tagIndex })) := by
  rw [readAllRecords_writeAllRecords]
  congr 1
  exact List.map_congr_left (fun e he => by rw [persisted, htag e he])

/-- Witness for C5 at a concrete record list. -/
theorem claim5_witness :
    readAllRecords "t"
        (writeAllRecords [{ value := "a", tag := "t", tagIndex := 2 },
                          { value := "b", tag := "t", tagIndex := -7 }]) =
      .ok [{ value := "a", tag := "t", tagIndex := 2 },
           { value := "b", tag := "t", tagIndex := -7 }] := by
  have h := claim5_decode_encode_roundtrip "t"
    [{ value := "a", tag := "t", tagIndex := 2 }, { value := "b", tag := "t", tagIndex := -7 }]
    (by intro e he; fin_cases he <;> rfl)
  simpa using h

/-- Claim C4: a record whose value portion does not decompose into exactly one
token, or whose position portion is not a valid integer, makes decoding fail
with an error of the DamagedData class — the Atoi syntax error when the
position does not parse, ErrDamagedCacheData otherwise — and the first
malformed record aborts decoding of the whole list, so no partial entry list
is returned; this holds for a lone malformed record (empty prefix and suffix)
and for one appended to an otherwise valid list alike. -/
theorem claim4_malformed_record_aborts (tag : String) (good : List Entry)
    (r : KVRecord) (rest : List KVRecord)
    (hbad : r.key.length ≠ 1 ∨ atoi r.val = none) :
    readAllRecords tag (writeAllRecords good ++ r :: rest) = .error (recordError r) ∧
      isDamagedData (recordError r) = true := by
  have hrec : readAllRecords tag (r :: rest) = .error (recordError r) := by
    rw [readAllRecords, recordError]
    cases hv : atoi r.val with
    | none => rfl
    | some tagIndex =>
      match hk : r.key, hbad with
      | [v], hbad =>
        exfalso
        rcases hbad with hlen | hnone
        · exact hlen rfl
        · rw [hv] at hnone; cases hnone
      | [], _ => rfl
      | v₁ :: v₂ :: vs, _ => rfl
  refine ⟨?_, readAllRecords_error_isDamagedData tag (r :: rest) _ hrec⟩
  rw [readAllRecords_append, readAllRecords_writeAllRecords, hrec]
  rfl

/-- Witness for C4: a two-token record appended to a valid list, and a lone
record with a non-integer position token. -/
theorem claim4_witness :
    readAllRecords "t"
        (writeAllRecords [{ value := "a", tag := "t", tagIndex := 0 }] ++
          [{ key := ["b", "c"], val := "1" }]) =
      .error .damagedCacheData ∧
    readAllRecords "t" [{ key := ["b"], val := "x1" }] = .error (.numError "x1") := by
  constructor
  · have h := claim4_malformed_record_aborts "t" [{ value := "a", tag := "t", tagIndex := 0 }]
      { key := ["b", "c"], val := "1" } [] (Or.inl (by decide))
    exact h.1
  · have h := claim4_malformed_record_aborts "t" [] { key := ["b"], val := "x1" } []
      (Or.inr (by decide))
    exact h.1

/-- Claim C10: when the cached record list of a tag fails to decode, the
read-modify-write of cache Set and cache Remove returns the decode error with
the blob cache completely unchanged: the error is raised before any write. -/
theorem claim10_decode_error_leaves_cache_unchanged (c : BlobCache) (e : Entry)
    (recs : List KVRecord) (err : Err)
    (hget : blobGet c e.tag = some recs)
    (hdec : readAllRecords e.tag recs = .error err) :
    cacheSet c e = (.error err, c) ∧ cacheRemove c e = (.error err, c) := by
  unfold cacheSet cacheRemove withTagEntries
  simp [hget, hdec]

/-- Witness for C10 on a concrete damaged cache. -/
theorem claim10_witness :
    cacheSet ⟨[("t", [{ key := [], val := "0" }])], fun _ => true⟩
        { value := "v", tag := "t", tagIndex := 1 } =
      (.error .damagedCacheData, ⟨[("t", [{ key := [], val := "0" }])], fun _ => true⟩) ∧
    cacheRemove ⟨[("t", [{ key := [], val := "0" }])], fun _ => true⟩
        { value := "v", tag := "t", tagIndex := 1 } =
      (.error .damagedCacheData, ⟨[("t", [{ key := [], val := "0" }])], fun _ => true⟩) :=
  claim10_decode_error_leaves_cache_unchanged
    ⟨[("t", [{ key := [], val := "0" }])], fun _ => true⟩
    { value := "v", tag := "t", tagIndex := 1 } [{ key := [], val := "0" }]
    .damagedCacheData rfl rfl

/-- Claim C8: cache Get never fails for a queried tag that is simply absent —
in particular a query of absent tags alone yields the empty entry list — and
it succeeds whenever every present queried tag decodes; but when a present
cached record list of some queried tag cannot be decoded (every earlier
queried tag being absent or decodable), Get fails with that decode error,
which belongs to the DamagedData class. -/
theorem claim8_cacheGet_absent_vs_damaged (c : BlobCache) (tags pre post : List String)
    (t : String) (recs : List KVRecord) (err : Err) :
    ((∀ t' ∈ tags, blobGet c t' = none) → cacheGet c tags = .ok []) ∧
    ((∀ t' ∈ tags, ∀ recs', blobGet c t' = some recs' →
        ∃ es, readAllRecords t' recs' = .ok es) →
      ∃ es, cacheGet c tags = .ok es) ∧
    ((∀ t' ∈ pre, ∀ recs', blobGet c t' = some recs' →
        ∃ es, readAllRecords t' recs' = .ok es) →
      blobGet c t = some recs →
      readAllRecords t recs = .error err →
      cacheGet c (pre ++ t :: post) = .error err ∧ isDamagedData err = true) := by
  refine ⟨?_, ?_, ?_⟩
  · intro habs
    induction tags with
    | nil => rfl
    | cons t' rest ih =>
      rw [cacheGet, habs t' (by simp)]
      exact ih (fun x hx => habs x (by simp [hx]))
  · intro hok
    induction tags with
    | nil => exact ⟨[], rfl⟩
    | cons t' rest ih =>
      obtain ⟨es, hes⟩ := ih (fun x hx => hok x (by simp [hx]))
      rw [cacheGet]
      cases hb : blobGet c t' with
      | none => exact ⟨es, hes⟩
      | some recs' =>
        obtain ⟨es', hes'⟩ := hok t' (by simp) recs' hb
        exact ⟨es' ++ es, by simp [hes', hes, Except.bind, Except.map]⟩
  · intro hpre hb hdec
    refine ⟨?_, readAllRecords_error_isDamagedData t recs err hdec⟩
    induction pre with
    | nil =>
      rw [List.nil_append, cacheGet]
      simp only [hb, hdec]
      rfl
    | cons t' rest ih =>
      rw [List.cons_append, cacheGet]
      have hrest := ih (fun x hx => hpre x (by simp [hx]))
      cases hb' : blobGet c t' with
      | none => exact hrest
      | some recs' =>
        obtain ⟨es, hes⟩ := hpre t' (by simp) recs' hb'
        simp only [hes, hrest]
        rfl

/-- Witness for C8: a query over an absent tag followed by a tag whose cached
record holds a non-integer position token. -/
theorem claim8_witness :
    cacheGet ⟨[("t", [{ key := ["v"], val := "zz" }])], fun _ => true⟩ ["a", "t"] =
      .error (.numError "zz") ∧
    isDamagedData (.numError "zz") = true := by
  have h := (claim8_cacheGet_absent_vs_damaged
    ⟨[("t", [{ key := ["v"], val := "zz" }])], fun _ => true⟩ [] ["a"] []
    "t" [{ key := ["v"], val := "zz" }] (.numError "zz")).2.2
  exact h (by intro t' ht'; fin_cases ht' <;> intro recs' hr <;> cases hr) rfl rfl

/-- Uniqueness key of the persistent index: the (value, tag) pair. -/
def pairKey (e : Entry) : String × String := (e.value, e.tag)

theorem cacheSetOp_values_of_mem (e : Entry) (l : List Entry)
    (h : e.value ∈ mapEntries l) : mapEntries (cacheSetOp e l) = mapEntries l := by
  induction l with
  | nil => simp [mapEntries] at h
  | cons x rest ih =>
    rw [cacheSetOp]
    by_cases hx : x.value = e.value
    · rw [if_pos hx]
      simp [mapEntries]
    · rw [if_neg hx]
      have hmem : e.value ∈ mapEntries rest := by
        simp only [mapEntries, List.map_cons, List.mem_cons] at h
        rcases h with h | h
        · exact absurd h.symm hx
        · simpa [mapEntries] using h
      simp only [mapEntries, List.map_cons] at ih ⊢
      rw [ih hmem]

theorem cacheSetOp_of_not_mem (e : Entry) (l : List Entry)
    (h : e.value ∉ mapEntries l) : cacheSetOp e l = l ++ [e] := by
  induction l with
  | nil => rfl
  | cons x rest ih =>
    rw [cacheSetOp]
    simp only [mapEntries, List.map_cons, List.mem_cons, not_or] at h
    rw [if_neg (fun hx => h.1 hx.symm), ih (by simpa [mapEntries] using h.2)]
    rfl

theorem cacheSetOp_nodup (e : Entry) (l : List Entry)
    (h : (mapEntries l).Nodup) : (mapEntries (cacheSetOp e l)).Nodup := by
  by_cases hm : e.value ∈ mapEntries l
  · rw [cacheSetOp_values_of_mem e l hm]
    exact h
  · rw [cacheSetOp_of_not_mem e l hm]
    simp only [mapEntries, List.map_append, List.map_cons, List.map_nil]
    rw [List.nodup_append]
    exact ⟨h, List.nodup_singleton _, by
      intro v hv hv'
      simp only [List.mem_singleton] at hv'
      exact hm (hv' ▸ hv)⟩

theorem cacheSetOp_upsert (e : Entry) (l : List Entry) :
    ∃ x ∈ cacheSetOp e l, x.value = e.value ∧ x.tagIndex = e.tagIndex := by
  induction l with
  | nil => exact ⟨e, by simp [cacheSetOp]⟩
  | cons x rest ih =>
    rw [cacheSetOp]
    by_cases hx : x.value = e.value
    · exact ⟨{ x with tagIndex := e.tagIndex }, by rw [if_pos hx]; simp [hx]⟩
    · obtain ⟨y, hy, hy'⟩ := ih
      exact ⟨y, by rw [if_neg hx]; simp [hy], hy'⟩

theorem storageSet_pairs_of_mem (e : Entry) (l : List Entry)
    (h : pairKey e ∈ l.map pairKey) : (storageSet e l).map pairKey = l.map pairKey := by
  induction l with
  | nil => simp at h
  | cons x rest ih =>
    rw [storageSet]
    by_cases hx : x.tag = e.tag ∧ x.value = e.value
    · rw [if_pos hx]
      simp [pairKey, hx.1, hx.2]
    · rw [if_neg hx]
      have hmem : pairKey e ∈ rest.map pairKey := by
        simp only [List.map_cons, List.mem_cons] at h
        rcases h with h | h
        · exfalso
          apply hx
          simp only [pairKey, Prod.mk.injEq] at h
          exact ⟨h.2.symm, h.1.symm⟩
        · exact h
      simp only [List.map_cons]
      rw [ih hmem]

theorem storageSet_of_not_mem (e : Entry) (l : List Entry)
    (h : pairKey e ∉ l.map pairKey) : storageSet e l = l ++ [e] := by
  induction l with
  | nil => rfl
  | cons x rest ih =>
    rw [storageSet]
    simp only [List.map_cons, List.mem_cons, not_or] at h
    rw [if_neg (fun hx => h.1 (by simp [pairKey, hx.1, hx.2])), ih h.2]
    rfl

theorem storageSet_nodup (e : Entry) (l : List Entry)
    (h : (l.map pairKey).Nodup) : ((storageSet e l).map pairKey).Nodup := by
  by_cases hm : pairKey e ∈ l.map pairKey
  · rw [storageSet_pairs_of_mem e l hm]
    exact h
  · rw [storageSet_of_not_mem e l hm]
    simp only [List.map_append, List.map_cons, List.map_nil]
    rw [List.nodup_append]
    exact ⟨h, List.nodup_singleton _, by
      intro v hv hv'
      simp only [List.mem_singleton] at hv'
      exact hm (hv' ▸ hv)⟩

theorem storageSet_upsert (e : Entry) (l : List Entry) :
    ∃ x ∈ storageSet e l, x.value = e.value ∧ x.tag = e.tag ∧ x.tagIndex = e.tagIndex := by
  induction l with
  | nil => exact ⟨e, by simp [storageSet]⟩
  | cons x rest ih =>
    rw [storageSet]
    by_cases hx : x.tag = e.tag ∧ x.value = e.value
    · exact ⟨{ x with tagIndex := e.tagIndex }, by rw [if_pos hx]; simp [hx.1, hx.2]⟩
    · obtain ⟨y, hy, hy'⟩ := ih
      exact ⟨y, by rw [if_neg hx]; simp [hy], hy'⟩

theorem blobGet_blobSet_self (c : BlobCache) (tag : String) (recs : List KVRecord) :
    blobGet (blobSet c tag recs) tag = some recs := by
  simp [blobGet, blobSet, List.find?]

theorem mapEntries_map_persisted (tag : String) (l : List Entry) :
    mapEntries (l.map (persisted tag)) = mapEntries l := by
  simp [mapEntries, persisted, List.map_map, Function.comp]

/-- Well-formedness of one tag's cached content: if present, it decodes and
holds no two entries with the same value. -/
def CacheTagWF (c : BlobCache) (tag : String) : Prop :=
  ∀ recs, blobGet c tag = some recs →
    ∃ es, readAllRecords tag recs = .ok es ∧ (mapEntries es).Nodup

/-- Claim C9: the (value, tag) uniqueness invariant is preserved by Set, and
the latest Set overwrites the tag index for the pair.
Cache-side, on the decoded list of one tag: Set keeps values duplicate-free,
replaces in place (same value list) when the value is present, appends the
entry otherwise, and the result holds the entry's value with the new tag
index; lifted to the cache itself, setting into a well-formed tag leaves its
re-read record list decodable, value-duplicate-free and holding the new tag
index for the value.
Storage-side (upsert semantics modelled from the spec, matching the mock
storage): Set keeps (value, tag) pairs duplicate-free, replaces in place when
the pair is present, appends otherwise, and stores the new tag index for the
pair. -/
theorem claim9_unique_pairs_upsert (e : Entry) (l ss : List Entry) (c c' : BlobCache) :
    ((mapEntries l).Nodup →
      (mapEntries (cacheSetOp e l)).Nodup ∧
      (e.value ∈ mapEntries l → mapEntries (cacheSetOp e l) = mapEntries l) ∧
      (e.value ∉ mapEntries l → cacheSetOp e l = l ++ [e]) ∧
      ∃ x ∈ cacheSetOp e l, x.value = e.value ∧ x.tagIndex = e.tagIndex) ∧
    (CacheTagWF c e.tag → cacheSet c e = (.ok (), c') →
      ∃ recs', blobGet c' e.tag = some recs' ∧
        ∃ es', readAllRecords e.tag recs' = .ok es' ∧ (mapEntries es').Nodup ∧
          ∃ x ∈ es', x.value = e.value ∧ x.tagIndex = e.tagIndex) ∧
    ((ss.map pairKey).Nodup →
      ((storageSet e ss).map pairKey).Nodup ∧
      (pairKey e ∈ ss.map pairKey → (storageSet e ss).map pairKey = ss.map pairKey) ∧
      (pairKey e ∉ ss.map pairKey → storageSet e ss = ss ++ [e]) ∧
      ∃ x ∈ storageSet e ss, x.value = e.value ∧ x.tag = e.tag ∧ x.tagIndex = e.tagIndex) := by
  refine ⟨?_, ?_, ?_⟩
  · intro hnd
    exact ⟨cacheSetOp_nodup e l hnd, cacheSetOp_values_of_mem e l,
      cacheSetOp_of_not_mem e l, cacheSetOp_upsert e l⟩
  · intro hwf hset
    have hshape : ∀ es0, (mapEntries es0).Nodup →
        c' = blobSet c e.tag (writeAllRecords (cacheSetOp e es0)) →
        ∃ recs', blobGet c' e.tag = some recs' ∧
          ∃ es', readAllRecords e.tag recs' = .ok es' ∧ (mapEntries es').Nodup ∧
            ∃ x ∈ es', x.value = e.value ∧ x.tagIndex = e.tagIndex := by
      intro es0 hnd0 hc'
      refine ⟨writeAllRecords (cacheSetOp e es0), by rw [hc', blobGet_blobSet_self], ?_⟩
      refine ⟨(cacheSetOp e es0).map (persisted e.tag),
        readAllRecords_writeAllRecords e.tag _, ?_, ?_⟩
      · rw [mapEntries_map_persisted]
        exact cacheSetOp_nodup e es0 hnd0
      · obtain ⟨x, hx, hx1, hx2⟩ := cacheSetOp_upsert e es0
        exact ⟨persisted e.tag x, List.mem_map_of_mem _ hx, by simp [persisted, hx1, hx2]⟩
    unfold cacheSet withTagEntries at hset
    cases hb : blobGet c e.tag with
    | none =>
      rw [hb] at hset
      unfold writeBack at hset
      by_cases ha : c.admits e.tag
      · rw [if_pos ha] at hset
        have hc' : c' = blobSet c e.tag (writeAllRecords (cacheSetOp e [])) :=
          congrArg Prod.snd hset.symm
        exact hshape [] (by simp [mapEntries]) hc'
      · rw [if_neg ha] at hset
        cases hset
    | some recs =>
      obtain ⟨es, hes, hnd⟩ := hwf recs hb
      rw [hb] at hset
      simp only [hes] at hset
      unfold writeBack at hset
      by_cases ha : c.admits e.tag
      · rw [if_pos ha] at hset
        have hc' : c' = blobSet c e.tag (writeAllRecords (cacheSetOp e es)) :=
          congrArg Prod.snd hset.symm
        exact hshape es hnd hc'
      · rw [if_neg ha] at hset
        cases hset
  · intro hnd
    exact ⟨storageSet_nodup e ss hnd, storageSet_pairs_of_mem e ss,
      storageSet_of_not_mem e ss, storageSet_upsert e ss⟩

/-- Witness for C9 at a concrete entry, tag list, storage and cache. -/
theorem claim9_witness :
    (mapEntries (cacheSetOp { value := "v", tag := "t", tagIndex := 3 }
        [{ value := "v", tag := "t", tagIndex := 0 }])).Nodup ∧
    (∃ recs', blobGet (blobSet ⟨[], fun _ => true⟩ "t"
          (writeAllRecords (cacheSetOp { value := "v", tag := "t", tagIndex := 3 } [])))
        "t" = some recs' ∧
      ∃ es', readAllRecords "t" recs' = .ok es' ∧ (mapEntries es').Nodup ∧
        ∃ x ∈ es', x.value = "v" ∧ x.tagIndex = 3) ∧
    ∃ x ∈ storageSet { value := "v", tag := "t", tagIndex := 3 }
        [{ value := "v", tag := "t", tagIndex := 0 }],
      x.value = "v" ∧ x.tag = "t" ∧ x.tagIndex = 3 := by
  have h := claim9_unique_pairs_upsert { value := "v", tag := "t", tagIndex := 3 }
    [{ value := "v", tag := "t", tagIndex := 0 }]
    [{ value := "v", tag := "t", tagIndex := 0 }]
    ⟨[], fun _ => true⟩
    (blobSet ⟨[], fun _ => true⟩ "t"
      (writeAllRecords (cacheSetOp { value := "v", tag := "t", tagIndex := 3 } [])))
  refine ⟨(h.1 (by simp [mapEntries])).1, ?_, (h.2.2 (by simp [pairKey])).2.2.2⟩
  exact h.2.1 (by intro recs hr; cases hr) rfl

theorem setLoopFrom_append {σs σc : Type}
    (sSet : σs → Entry → Except Err Unit × σs)
    (cSet : σc → Entry → Except Err Unit × σc)
    (value : String) :
    ∀ (pre rest : List String) (i : Nat) (ss : σs) (cs : σc),
    setLoopFrom sSet cSet value i (pre ++ rest) ss cs =
      (match setLoopFrom sSet cSet value i pre ss cs with
       | (.ok _, ss', cs') => setLoopFrom sSet cSet value (i + pre.length) rest ss' cs'
       | (.error e, ss', cs') => (.error e, ss', cs')) := by
  intro pre
  induction pre with
  | nil =>
    intro rest i ss cs
    simp [setLoopFrom]
  | cons t pre ih =>
    intro rest i ss cs
    rw [List.cons_append]
    rcases hs : sSet ss { value := value, tag := t, tagIndex := (i : Int) } with ⟨fst, ss'⟩
    rcases fst with e | u
    · simp [setLoopFrom, hs]
    · rcases hc : cSet cs { value := value, tag := t, tagIndex := (i : Int) } with ⟨fstc, cs'⟩
      rcases fstc with e | u
      · simp [setLoopFrom, hs, hc]
      · simp only [setLoopFrom, hs, hc]
        rw [ih rest (i + 1) ss' cs']
        have hlen : i + 1 + pre.length = i + (t :: pre).length := by
          simp [List.length_cons]
          omega
        rw [hlen]

/-- Claim C7: TagStash.Set processes the tags in order, upserting
Entry{value, tag, i} for the tag at position i into the persistent index
first and the tag cache second; the first failing store aborts the call with
that error — a storage failure for a tag leaves the cache untouched for that
tag — and the associations already applied for earlier tags in the same call
remain in the returned collaborator states (no rollback). -/
theorem claim7_set_storage_first_no_rollback {σs σc : Type}
    (sSet : σs → Entry → Except Err Unit × σs)
    (cSet : σc → Entry → Except Err Unit × σc)
    (value : String) (pre post : List String) (t : String)
    (ss : σs) (cs : σc) (ss' : σs) (cs' : σc) (err : Err)
    (hpre : setLoopFrom sSet cSet value 0 pre ss cs = (.ok (), ss', cs')) :
    (∀ ss'', sSet ss' { value := value, tag := t, tagIndex := (pre.length : Int) } =
        (.error err, ss'') →
      tagStashSetW sSet cSet value (pre ++ t :: post) ss cs = (.error err, ss'', cs')) ∧
    (∀ ss'' cs'', sSet ss' { value := value, tag := t, tagIndex := (pre.length : Int) } =
        (.ok (), ss'') →
      cSet cs' { value := value, tag := t, tagIndex := (pre.length : Int) } =
        (.error err, cs'') →
      tagStashSetW sSet cSet value (pre ++ t :: post) ss cs = (.error err, ss'', cs'')) := by
  constructor
  · intro ss'' hfail
    rw [tagStashSetW, setLoopFrom_append, hpre]
    simp only [setLoopFrom, Nat.zero_add, hfail]
  · intro ss'' cs'' hsok hfail
    rw [tagStashSetW, setLoopFrom_append, hpre]
    simp only [setLoopFrom, Nat.zero_add, hsok, hfail]

/-- Storage-set collaborator of the C7 witness: fails on tag "bad". -/
def wStorageSet (ss : List Entry) (e : Entry) : Except Err Unit × List Entry :=
  if e.tag = "bad" then (.error (.external "forged"), ss) else (.ok (), storageSet e ss)

/-- Cache-set collaborator of the C7 witness: fails on tag "cbad". -/
def wCacheSet (cs : List Entry) (e : Entry) : Except Err Unit × List Entry :=
  if e.tag = "cbad" then (.error (.external "cachefail"), cs) else (.ok (), cacheSetOp e cs)

/-- Witness for C7: a storage failure on the second tag aborts with the first
tag's associations kept and the cache untouched for the failing tag; a cache
failure on the second tag keeps that tag's storage write. -/
theorem claim7_witness :
    tagStashSetW wStorageSet wCacheSet "v" ["a", "bad"] [] [] =
      (.error (.external "forged"),
        [{ value := "v", tag := "a", tagIndex := 0 }],
        [{ value := "v", tag := "a", tagIndex := 0 }]) ∧
    tagStashSetW wStorageSet wCacheSet "v" ["a", "cbad", "z"] [] [] =
      (.error (.external "cachefail"),
        [{ value := "v", tag := "a", tagIndex := 0 },
         { value := "v", tag := "cbad", tagIndex := 1 }],
        [{ value := "v", tag := "a", tagIndex := 0 }]) := by
  constructor
  · exact (claim7_set_storage_first_no_rollback wStorageSet wCacheSet "v" ["a"] [] "bad"
      [] [] [{ value := "v", tag := "a", tagIndex := 0 }]
      [{ value := "v", tag := "a", tagIndex := 0 }] (.external "forged") rfl).1
      [{ value := "v", tag := "a", tagIndex := 0 }] rfl
  · exact (claim7_set_storage_first_no_rollback wStorageSet wCacheSet "v" ["a"] ["z"] "cbad"
      [] [] [{ value := "v", tag := "a", tagIndex := 0 }]
      [{ value := "v", tag := "a", tagIndex := 0 }] (.external "cachefail") rfl).2
      [{ value := "v", tag := "a", tagIndex := 0 },
       { value := "v", tag := "cbad", tagIndex := 1 }]
      [{ value := "v", tag := "a", tagIndex := 0 }] rfl rfl

/-- Claim C6: when writing a storage-fetched entry into the tag cache fails
during getAll, the whole call — and hence Get and GetAll — fails with that
error and returns no result list, even though the entries had already been
retrieved from the persistent index. -/
theorem claim6_warmup_failure_fails_call (s : TS) (tags : List String)
    (centries : List Entry) (err : Err) (c' : BlobCache)
    (hc : cacheGet s.cache tags = .ok centries)
    (hw : warmUp cacheSet s.cache
        (storageGet (setRequestIndex tags centries).2 s.storage) = (.error err, c')) :
    tsGetAll s tags = (.error err, c') ∧
    tsGetAllValues s tags = .error err ∧
    tsGetValue s tags = .error err := by
  have h1 : tsGetAll s tags = (.error err, c') := by
    unfold tsGetAll getAllW
    simp only [hc, storageGetE, hw]
  exact ⟨h1, by unfold tsGetAllValues; rw [h1], by unfold tsGetValue; rw [h1]⟩

/-- Witness for C6: the blob cache refuses admission for tag "big", so the
warm-up write of the entry fetched from storage fails the whole read. -/
theorem claim6_witness :
    tsGetAll ⟨⟨[], fun t => !(t == "big")⟩, [{ value := "v", tag := "big", tagIndex := 0 }]⟩
        ["big"] =
      (.error .failedToCacheEntry, ⟨[], fun t => !(t == "big")⟩) ∧
    tsGetAllValues ⟨⟨[], fun t => !(t == "big")⟩,
        [{ value := "v", tag := "big", tagIndex := 0 }]⟩ ["big"] =
      .error .failedToCacheEntry ∧
    tsGetValue ⟨⟨[], fun t => !(t == "big")⟩,
        [{ value := "v", tag := "big", tagIndex := 0 }]⟩ ["big"] =
      .error .failedToCacheEntry :=
  claim6_warmup_failure_fails_call
    ⟨⟨[], fun t => !(t == "big")⟩, [{ value := "v", tag := "big", tagIndex := 0 }]⟩
    ["big"] [] .failedToCacheEntry ⟨[], fun t => !(t == "big")⟩ rfl rfl

/-- Concatenation of the per-tag entry lists a query consults, in query
order. -/
def catMap (f : String → List Entry) : List String → List Entry
  | [] => []
  | t :: rest => f t ++ catMap f rest

/-- Decoded cached entry list of one tag; empty when the tag is absent (the
decode-error case is empty as well, but it is excluded wherever this
definition is used under cache well-formedness). -/
def cachedEntries (c : BlobCache) (t : String) : List Entry :=
  match blobGet c t with
  | none => []
  | some recs =>
    match readAllRecords t recs with
    | .ok es => es
    | .error _ => []

/-- Well-formedness of the whole tag cache: every present tag decodes into a
value-duplicate-free entry list. -/
def CacheWF (c : BlobCache) : Prop := ∀ t, CacheTagWF c t

/-- Well-formedness of the storage contents: (value, tag) pairs are unique
(the documented contract of Storage.Set implementations). -/
def StorageWF (ss : List Entry) : Prop := (ss.map pairKey).Nodup

/-- Entry list that getAll consults for one queried tag: the cached list when
it yields at least one entry, the storage association list for the tag
otherwise. -/
def visibleTagEntries (s : TS) (t : String) : List Entry :=
  if cachedEntries s.cache t = [] then s.storage.filter (fun e => decide (e.tag = t))
  else cachedEntries s.cache t

/-- Whether value `v` matches queried tag `t` in state `s`: some entry of the
consulted list for `t` carries `v`. -/
def matchesTag (s : TS) (v t : String) : Bool :=
  (visibleTagEntries s t).any (fun e => decide (e.value = v))

/-- Stored tag index of value `v` under tag `t` in state `s` (0 when there is
none). -/
def visibleTagIndex (s : TS) (v t : String) : Int :=
  match (visibleTagEntries s t).find? (fun e => decide (e.value = v)) with
  | some e => e.tagIndex
  | none => 0

/-- Functional description of what `setRequestIndex` starting at position `i`
does to one entry: an entry whose tag is queried gets the absolute difference
between the tag's query position and the entry's stored tag index. -/
def assignDeltaFrom (i : Nat) (tags : List String) (e : Entry) : Entry :=
  if e.tag ∈ tags then
    { e with requestIndexDelta := (((i + tags.indexOf e.tag : Nat) : Int) - e.tagIndex).natAbs }
  else e

/-- Functional description of `setRequestIndex` for the full query list. -/
def assignDelta (tags : List String) (e : Entry) : Entry := assignDeltaFrom 0 tags e

/-- Sum of the transient index deltas of a list of entries. -/
def sumDeltas (l : List Entry) : Int := (l.map (fun e => e.requestIndexDelta)).sum

theorem assignDeltaFrom_value (i : Nat) (tags : List String) (e : Entry) :
    (assignDeltaFrom i tags e).value = e.value := by
  unfold assignDeltaFrom
  split <;> rfl

theorem assignDeltaFrom_tag (i : Nat) (tags : List String) (e : Entry) :
    (assignDeltaFrom i tags e).tag = e.tag := by
  unfold assignDeltaFrom
  split <;> rfl

theorem readAllRecords_mem_tag (tag : String) (recs : List KVRecord) (es : List Entry)
    (h : readAllRecords tag recs = .ok es) : ∀ e ∈ es, e.tag = tag := by
  induction recs generalizing es with
  | nil =>
    cases h
    intro e he
    cases he
  | cons r rs ih =>
    rw [readAllRecords] at h
    cases hv : atoi r.val with
    | none => rw [hv] at h; cases h
    | some tagIndex =>
      rw [hv] at h
      match hk : r.key with
      | [v] =>
        rw [hk] at h
        simp only [] at h
        cases hrec : readAllRecords tag rs with
        | error e => rw [hrec] at h; cases h
        | ok es0 =>
          rw [hrec] at h
          cases h
          intro e he
          rcases List.mem_cons.mp he with rfl | he'
          · rfl
          · exact ih es0 hrec e he'
      | [] => rw [hk] at h; cases h
      | v₁ :: v₂ :: vs => rw [hk] at h; cases h

theorem cachedEntries_tag (c : BlobCache) (t : String) :
    ∀ e ∈ cachedEntries c t, e.tag = t := by
  intro e he
  unfold cachedEntries at he
  cases hb : blobGet c t with
  | none => simp only [hb] at he; cases he
  | some recs =>
    simp only [hb] at he
    cases hr : readAllRecords t recs with
    | error err => simp only [hr] at he; cases he
    | ok es =>
      simp only [hr] at he
      exact readAllRecords_mem_tag t recs es hr e he

theorem cachedEntries_nodup (c : BlobCache) (t : String) (hwf : CacheWF c) :
    (mapEntries (cachedEntries c t)).Nodup := by
  unfold cachedEntries
  cases hb : blobGet c t with
  | none => simp [mapEntries]
  | some recs =>
    obtain ⟨es, hok, hnd⟩ := hwf t recs hb
    simp only [hb, hok]
    exact hnd

theorem cacheGet_eq_ok (c : BlobCache) (tags : List String) (hwf : CacheWF c) :
    cacheGet c tags = .ok (catMap (cachedEntries c) tags) := by
  induction tags with
  | nil => rfl
  | cons t rest ih =>
    rw [cacheGet, catMap]
    cases hb : blobGet c t with
    | none =>
      have hce : cachedEntries c t = [] := by unfold cachedEntries; rw [hb]
      rw [hce, List.nil_append]
      exact ih
    | some recs =>
      obtain ⟨es, hok, _⟩ := hwf t recs hb
      have hce : cachedEntries c t = es := by
        unfold cachedEntries
        simp only [hb, hok]
      simp only [hok, ih, hce]
      rfl

theorem map_upd_any_tag (t' : String) (es : List Entry) (f : Entry → Entry)
    (hf : ∀ e, (f e).tag = e.tag) :
    (es.map f).any (fun e => decide (e.tag = t')) = es.any (fun e => decide (e.tag = t')) := by
  induction es with
  | nil => rfl
  | cons e rest ih => simp only [List.map_cons, List.any_cons, hf e, ih]

theorem setRequestIndexFrom_fst (tags : List String) (hnd : tags.Nodup) :
    ∀ (i : Nat) (es : List Entry),
    (setRequestIndexFrom i tags es).1 = es.map (assignDeltaFrom i tags) := by
  induction tags with
  | nil =>
    intro i es
    rw [setRequestIndexFrom]
    have : ∀ e ∈ es, assignDeltaFrom i [] e = e := by
      intro e _
      unfold assignDeltaFrom
      rw [if_neg (by simp)]
    rw [List.map_congr_left this, List.map_id']
  | cons t rest ih =>
    intro i es
    rw [setRequestIndexFrom]
    have hnd' : rest.Nodup := hnd.of_cons
    have htn : t ∉ rest := by
      intro hmem
      exact (List.nodup_cons.mp hnd).1 hmem
    have hfst : ∀ (p : List Entry × List String) (found : Bool),
        (if found = true then p else (p.1, t :: p.2)).1 = p.1 := by
      intro p found
      cases found <;> simp
    rw [hfst]
    rw [ih hnd' (i + 1)]
    rw [List.map_map]
    apply List.map_congr_left
    intro e _
    show assignDeltaFrom (i + 1) rest
      (if e.tag = t then { e with requestIndexDelta := ((i : Int) - e.tagIndex).natAbs } else e) =
      assignDeltaFrom i (t :: rest) e
    by_cases het : e.tag = t
    · rw [if_pos het]
      unfold assignDeltaFrom
      rw [if_neg (by simpa [het] using htn), if_pos (by simp [het])]
      simp only [het, List.indexOf_cons_self, Nat.add_zero]
    · rw [if_neg het]
      unfold assignDeltaFrom
      by_cases hmem : e.tag ∈ rest
      · rw [if_pos hmem, if_pos (by simp [hmem])]
        have hidx : List.indexOf e.tag (t :: rest) = List.indexOf e.tag rest + 1 :=
          List.indexOf_cons_ne rest (fun h => het h.symm)
        rw [hidx]
        have : i + 1 + List.indexOf e.tag rest = i + (List.indexOf e.tag rest + 1) := by omega
        rw [this]
      · rw [if_neg hmem, if_neg (by simp [hmem, het])]

theorem setRequestIndexFrom_snd (tags : List String) :
    ∀ (i : Nat) (es : List Entry),
    (setRequestIndexFrom i tags es).2 =
      tags.filter (fun t => ! es.any (fun e => decide (e.tag = t))) := by
  induction tags with
  | nil => intro i es; rfl
  | cons t rest ih =>
    intro i es
    rw [setRequestIndexFrom, List.filter_cons]
    have hrec : (setRequestIndexFrom (i + 1) rest (es.map (fun e =>
        if e.tag = t then { e with requestIndexDelta := ((i : Int) - e.tagIndex).natAbs }
        else e))).2 = rest.filter (fun t' => ! es.any (fun e => decide (e.tag = t'))) := by
      rw [ih (i + 1)]
      apply List.filter_congr
      intro x _
      have := map_upd_any_tag x es (fun e =>
        if e.tag = t then { e with requestIndexDelta := ((i : Int) - e.tagIndex).natAbs }
        else e) (fun e => by dsimp only; split <;> rfl)
      rw [this]
    cases hfound : es.any (fun e => decide (e.tag = t)) with
    | true =>
      rw [if_pos rfl, if_neg (by simp)]
      exact hrec
    | false =>
      rw [if_neg (by simp), if_pos (by simp)]
      rw [hrec]

theorem filter_eq_single (x : String) (nc : List String) (hnd : nc.Nodup) :
    nc.filter (fun t => decide (t = x)) = if x ∈ nc then [x] else [] := by
  induction nc with
  | nil => rfl
  | cons t rest ih =>
    rw [List.filter_cons]
    by_cases het : t = x
    · subst het
      rw [if_pos (by simp), if_pos (by simp)]
      have hrest : rest.filter (fun t' => decide (t' = t)) = [] := by
        rw [List.filter_eq_nil_iff]
        intro a ha
        simp only [decide_eq_true_eq]
        intro hat
        exact (List.nodup_cons.mp hnd).1 (hat ▸ ha)
      rw [hrest]
    · rw [if_neg (by simpa using het), ih (List.nodup_cons.mp hnd).2]
      by_cases hx : x ∈ rest
      · rw [if_pos hx, if_pos (by simp [hx])]
      · rw [if_neg hx, if_neg (by
          simp only [List.mem_cons, not_or]
          exact ⟨fun h => het h.symm, hx⟩)]

theorem storageGet_eq_filter (nc : List String) (ss : List Entry) (hnd : nc.Nodup) :
    storageGet nc ss = ss.filter (fun e => decide (e.tag ∈ nc)) := by
  induction ss with
  | nil => rfl
  | cons e rest ih =>
    rw [storageGet, List.filter_cons, filter_eq_single e.tag nc hnd, ih]
    by_cases hm : e.tag ∈ nc
    · rw [if_pos hm, if_pos (by simpa using hm)]
      rfl
    · rw [if_neg hm, if_neg (by simpa using hm)]
      rfl

theorem countP_or_disjoint {α : Type} (p q : α → Bool) (l : List α)
    (h : ∀ x ∈ l, ¬(p x = true ∧ q x = true)) :
    l.countP (fun x => p x || q x) = l.countP p + l.countP q := by
  induction l with
  | nil => rfl
  | cons x rest ih =>
    have hrest := ih (fun y hy => h y (by simp [hy]))
    rw [List.countP_cons, List.countP_cons, List.countP_cons, hrest]
    by_cases hp : p x = true
    · have hq : ¬ q x = true := fun hq => h x (by simp) ⟨hp, hq⟩
      simp [hp, hq]
      omega
    · by_cases hq : q x = true
      · simp [hp, hq]
        omega
      · simp [hp, hq]

theorem sumD_or_disjoint (p q : Entry → Bool) (l : List Entry)
    (h : ∀ x ∈ l, ¬(p x = true ∧ q x = true)) :
    sumDeltas (l.filter (fun x => p x || q x)) =
      sumDeltas (l.filter p) + sumDeltas (l.filter q) := by
  induction l with
  | nil => rfl
  | cons x rest ih =>
    have hrest := ih (fun y hy => h y (by simp [hy]))
    rw [List.filter_cons, List.filter_cons, List.filter_cons]
    by_cases hp : p x = true
    · have hq : ¬ q x = true := fun hq => h x (by simp) ⟨hp, hq⟩
      rw [if_pos (by simp [hp]), if_pos hp, if_neg hq]
      simp only [sumDeltas, List.map_cons, List.sum_cons] at hrest ⊢
      omega
    · by_cases hq : q x = true
      · rw [if_pos (by simp [hp, hq]), if_neg hp, if_pos hq]
        simp only [sumDeltas, List.map_cons, List.sum_cons] at hrest ⊢
        omega
      · rw [if_neg (by simp [hp, hq]), if_neg hp, if_neg hq]
        exact hrest

theorem countP_catMap (p : Entry → Bool) (f : String → List Entry) (l : List String) :
    (catMap f l).countP p = (l.map (fun t => (f t).countP p)).sum := by
  induction l with
  | nil => rfl
  | cons t rest ih =>
    rw [catMap, List.countP_append, List.map_cons, List.sum_cons, ih]

theorem sumD_filter_catMap (p : Entry → Bool) (f : String → List Entry) (l : List String) :
    sumDeltas ((catMap f l).filter p) =
      (l.map (fun t => sumDeltas ((f t).filter p))).sum := by
  induction l with
  | nil => rfl
  | cons t rest ih =>
    rw [catMap, List.filter_append, List.map_cons, List.sum_cons, ← ih]
    simp [sumDeltas]

theorem filter_eq_find_toList {κ : Type} [DecidableEq κ] (k : Entry → κ) (x : κ)
    (l : List Entry) (hnd : (l.map k).Nodup) :
    l.filter (fun e => decide (k e = x)) = (l.find? (fun e => decide (k e = x))).toList := by
  induction l with
  | nil => rfl
  | cons e rest ih =>
    rw [List.filter_cons, List.find?_cons]
    by_cases hk : k e = x
    · rw [if_pos (by simpa using hk)]
      have hke : decide (k e = x) = true := by simpa using hk
      rw [hke]
      have hrest : rest.filter (fun e' => decide (k e' = x)) = [] := by
        rw [List.filter_eq_nil_iff]
        intro a ha
        simp only [decide_eq_true_eq]
        intro hax
        have : k e ∈ rest.map k := by
          rw [hk, ← hax]
          exact List.mem_map_of_mem k ha
        exact (List.nodup_cons.mp (by simpa using hnd)).1 this
      rw [hrest]
      rfl
    · rw [if_neg (by simpa using hk)]
      have hke : decide (k e = x) = false := by simpa using hk
      rw [hke]
      exact ih (by simp only [List.map_cons] at hnd; exact (List.nodup_cons.mp hnd).2)

theorem sum_map_add {α M : Type} [AddCommMonoid M] (f g : α → M) (l : List α) :
    (l.map (fun x => f x + g x)).sum = (l.map f).sum + (l.map g).sum := by
  induction l with
  | nil => simp
  | cons x rest ih =>
    simp only [List.map_cons, List.sum_cons, ih]
    rw [add_add_add_comm]

theorem sum_indicator_count {α : Type} (p : α → Bool) (l : List α) :
    (l.map (fun x => if p x then (1 : Nat) else 0)).sum = l.countP p := by
  induction l with
  | nil => rfl
  | cons x rest ih =>
    rw [List.map_cons, List.sum_cons, List.countP_cons, ih]
    exact Nat.add_comm _ _

theorem sum_filter_if {α M : Type} [AddCommMonoid M] (p : α → Bool) (g : α → M) (l : List α) :
    ((l.filter p).map g).sum = (l.map (fun x => if p x then g x else 0)).sum := by
  induction l with
  | nil => rfl
  | cons x rest ih =>
    rw [List.filter_cons, List.map_cons, List.sum_cons]
    by_cases hp : p x = true
    · rw [if_pos hp, if_pos hp, List.map_cons, List.sum_cons, ih]
    · rw [if_neg hp, if_neg hp, ih, zero_add]

theorem find?_filter_comm {α : Type} (p q : α → Bool) (l : List α) :
    List.find? p (l.filter q) = List.find? (fun x => q x && p x) l := by
  induction l with
  | nil => rfl
  | cons x rest ih =>
    rw [List.filter_cons]
    by_cases hq : q x = true
    · rw [if_pos hq, List.find?_cons, List.find?_cons]
      by_cases hp : p x = true
      · simp [hp, hq]
      · simp only [hq, Bool.true_and]
        cases hpx : p x with
        | true => exact absurd hpx hp
        | false => exact ih
    · rw [if_neg hq, List.find?_cons]
      have hqf : (q x && p x) = false := by
        rw [Bool.eq_false_iff.mpr hq]
        rfl
      rw [hqf]
      exact ih

theorem any_value_mem (v : String) (l : List Entry) :
    l.any (fun x => decide (x.value = v)) = true ↔ v ∈ mapEntries l := by
  rw [List.any_eq_true, mapEntries]
  constructor
  · rintro ⟨x, hx, hxv⟩
    exact List.mem_map.mpr ⟨x, hx, by simpa using hxv⟩
  · intro h
    obtain ⟨x, hx, hxv⟩ := List.mem_map.mp h
    exact ⟨x, hx, by simpa using hxv⟩

theorem bumpValue_values (v : String) (d : Int) (u : List Entry) :
    mapEntries (bumpValue v d u) = mapEntries u := by
  induction u with
  | nil => rfl
  | cons x rest ih =>
    rw [bumpValue]
    by_cases hx : x.value = v
    · rw [if_pos hx]
      simp [mapEntries]
    · rw [if_neg hx]
      simp only [mapEntries, List.map_cons] at ih ⊢
      rw [ih]

theorem bumpValue_eq_map (v : String) (d : Int) (u : List Entry)
    (hnd : (mapEntries u).Nodup) :
    bumpValue v d u = u.map (fun x => if x.value = v then
      { x with requestTagMatch := x.requestTagMatch + 1,
               requestIndexDelta := x.requestIndexDelta + d } else x) := by
  induction u with
  | nil => rfl
  | cons x rest ih =>
    rw [bumpValue, List.map_cons]
    simp only [mapEntries, List.map_cons, List.nodup_cons] at hnd
    by_cases hx : x.value = v
    · rw [if_pos hx, if_pos hx]
      have hrest : ∀ y ∈ rest, (if y.value = v then
          { y with requestTagMatch := y.requestTagMatch + 1,
                   requestIndexDelta := y.requestIndexDelta + d } else y) = y := by
        intro y hy
        rw [if_neg]
        intro hyv
        exact hnd.1 (by rw [hx, ← hyv]; exact List.mem_map_of_mem _ hy)
      rw [List.map_congr_left hrest, List.map_id']
    · rw [if_neg hx, if_neg hx, ih hnd.2]

/-- Invariant of the `uniqueValues` accumulation: the accumulated unique list
has duplicate-free values, covers exactly the values of the processed prefix,
and each representative carries the occurrence count and delta sum of its
value over the processed prefix. -/
def UVInv (processed u : List Entry) : Prop :=
  (mapEntries u).Nodup ∧
  (∀ v : String, v ∈ mapEntries u ↔ v ∈ mapEntries processed) ∧
  ∀ x ∈ u,
    x.requestTagMatch = (processed.countP (fun e => decide (e.value = x.value)) : Int) ∧
    x.requestIndexDelta = sumDeltas (processed.filter (fun e => decide (e.value = x.value)))

theorem uniqueValuesAux_inv : ∀ (es processed u : List Entry), UVInv processed u →
    UVInv (processed ++ es) (uniqueValuesAux u es) := by
  intro es
  induction es with
  | nil =>
    intro processed u h
    rw [uniqueValuesAux, List.append_nil]
    exact h
  | cons e rest ih =>
    intro processed u h
    obtain ⟨hnd, hmemiff, hstats⟩ := h
    rw [uniqueValuesAux]
    have happ : processed ++ e :: rest = (processed ++ [e]) ++ rest := by simp
    rw [happ]
    by_cases hmem : u.any (fun x => decide (x.value = e.value)) = true
    · rw [if_pos hmem]
      apply ih
      have hmem' : e.value ∈ mapEntries u := (any_value_mem e.value u).mp hmem
      rw [bumpValue_eq_map e.value e.requestIndexDelta u hnd]
      refine ⟨?_, ?_, ?_⟩
      · rw [← bumpValue_eq_map e.value e.requestIndexDelta u hnd, bumpValue_values]
        exact hnd
      · intro v
        rw [← bumpValue_eq_map e.value e.requestIndexDelta u hnd, bumpValue_values]
        simp only [mapEntries, List.map_append, List.map_cons, List.map_nil, List.mem_append,
          List.mem_singleton]
        constructor
        · intro hv
          exact Or.inl ((hmemiff v).mp hv)
        · rintro (hv | rfl)
          · exact (hmemiff v).mpr hv
          · exact hmem'
      · intro x hx
        obtain ⟨y, hy, rfl⟩ := List.mem_map.mp hx
        obtain ⟨hcount, hsum⟩ := hstats y hy
        by_cases hyv : y.value = e.value
        · rw [if_pos hyv]
          constructor
          · show y.requestTagMatch + 1 = _
            rw [List.countP_append, hcount]
            have : List.countP (fun e' => decide (e'.value = y.value)) [e] = 1 := by
              simp [List.countP_cons, hyv]
            rw [this]
            push_cast
            ring
          · show y.requestIndexDelta + e.requestIndexDelta = _
            rw [List.filter_append, hsum]
            have : List.filter (fun e' => decide (e'.value = y.value)) [e] = [e] := by
              simp [List.filter_cons, hyv]
            rw [this]
            simp [sumDeltas]
        · rw [if_neg hyv]
          have hne : decide (e.value = y.value) = false := by
            simp only [decide_eq_false_iff_not]
            exact fun h => hyv h.symm
          constructor
          · rw [List.countP_append, hcount]
            have h0 : List.countP (fun e' => decide (e'.value = y.value)) [e] = 0 := by
              simp [List.countP_cons, hne]
            rw [h0]
            simp
          · rw [List.filter_append, hsum]
            have h0 : List.filter (fun e' => decide (e'.value = y.value)) [e] = [] := by
              simp [List.filter_cons, hne]
            rw [h0]
            simp [sumDeltas]
    · rw [if_neg hmem]
      apply ih
      have hmem' : e.value ∉ mapEntries u := by
        intro hv
        exact hmem ((any_value_mem e.value u).mpr hv)
      have hmemp : e.value ∉ mapEntries processed := fun hv => hmem' ((hmemiff e.value).mpr hv)
      refine ⟨?_, ?_, ?_⟩
      · simp only [mapEntries, List.map_append, List.map_cons, List.map_nil]
        rw [List.nodup_append]
        refine ⟨hnd, List.nodup_singleton _, ?_⟩
        intro v hv hv'
        simp only [List.mem_singleton] at hv'
        subst hv'
        exact hmem' hv
      · intro v
        simp only [mapEntries, List.map_append, List.map_cons, List.map_nil, List.mem_append,
          List.mem_singleton]
        constructor
        · rintro (hv | rfl)
          · exact Or.inl ((hmemiff v).mp hv)
          · exact Or.inr rfl
        · rintro (hv | rfl)
          · exact Or.inl ((hmemiff v).mpr hv)
          · exact Or.inr rfl
      · intro x hx
        rcases List.mem_append.mp hx with hx | hx
        · obtain ⟨hcount, hsum⟩ := hstats x hx
          have hxv : x.value ≠ e.value := by
            intro hxv
            exact hmem' (hxv ▸ List.mem_map_of_mem _ hx)
          have hne : decide (e.value = x.value) = false := by
            simp only [decide_eq_false_iff_not]
            exact fun h => hxv h.symm
          constructor
          · rw [List.countP_append, hcount]
            have h0 : List.countP (fun e' => decide (e'.value = x.value)) [e] = 0 := by
              simp [List.countP_cons, hne]
            rw [h0]
            simp
          · rw [List.filter_append, hsum]
            have h0 : List.filter (fun e' => decide (e'.value = x.value)) [e] = [] := by
              simp [List.filter_cons, hne]
            rw [h0]
            simp [sumDeltas]
        · simp only [List.mem_singleton] at hx
          subst hx
          constructor
          · show (1 : Int) = _
            rw [List.countP_append]
            have h0 : List.countP (fun e' => decide (e'.value = e.value)) processed = 0 := by
              rw [List.countP_eq_zero]
              intro a ha
              simp only [decide_eq_true_eq]
              intro hav
              exact hmemp (by rw [← hav]; exact List.mem_map_of_mem _ ha)
            have h1 : List.countP (fun e' => decide (e'.value = e.value)) [e] = 1 := by
              simp [List.countP_cons]
            rw [h0, h1]
            simp
          · show e.requestIndexDelta = _
            rw [List.filter_append]
            have h0 : List.filter (fun e' => decide (e'.value = e.value)) processed = [] := by
              rw [List.filter_eq_nil_iff]
              intro a ha
              simp only [decide_eq_true_eq]
              intro hav
              exact hmemp (by rw [← hav]; exact List.mem_map_of_mem _ ha)
            have h1 : List.filter (fun e' => decide (e'.value = e.value)) [e] = [e] := by
              simp [List.filter_cons]
            rw [h0, h1]
            simp [sumDeltas]

theorem uniqueValues_inv (es : List Entry) : UVInv es (uniqueValues es) := by
  have h := uniqueValuesAux_inv es [] []
  rw [List.nil_append] at h
  apply h
  refine ⟨by simp [mapEntries], by simp [mapEntries], ?_⟩
  intro x hx
  cases hx

theorem entryLe_iff (a b : Entry) :
    (! entryLess b a) = true ↔
      (b.requestTagMatch < a.requestTagMatch ∨
        (b.requestTagMatch = a.requestTagMatch ∧ a.requestIndexDelta ≤ b.requestIndexDelta)) := by
  unfold entryLess
  by_cases h : b.requestTagMatch = a.requestTagMatch
  · rw [if_pos h]
    simp only [Bool.not_eq_true', decide_eq_false_iff_not, not_lt]
    constructor
    · intro hle
      exact Or.inr ⟨h, hle⟩
    · rintro (hlt | ⟨_, hle⟩)
      · omega
      · exact hle
  · rw [if_neg h]
    simp only [Bool.not_eq_true', decide_eq_false_iff_not, gt_iff_lt, not_lt]
    constructor
    · intro hle
      left
      omega
    · rintro (hlt | ⟨heq, _⟩)
      · omega
      · exact absurd heq h

theorem sortEntries_perm (es : List Entry) : (sortEntries es).Perm es :=
  List.mergeSort_perm es _

theorem sortEntries_pairwise (es : List Entry) :
    (sortEntries es).Pairwise (fun a b =>
      b.requestTagMatch < a.requestTagMatch ∨
        (b.requestTagMatch = a.requestTagMatch ∧
          a.requestIndexDelta ≤ b.requestIndexDelta)) := by
  have htrans : ∀ (a b c : Entry), (! entryLess b a) = true → (! entryLess c b) = true →
      (! entryLess c a) = true := by
    intro a b c hab hbc
    rw [entryLe_iff] at hab hbc ⊢
    omega
  have htotal : ∀ (a b : Entry), ((! entryLess b a) || (! entryLess a b)) = true := by
    intro a b
    rw [Bool.or_eq_true, entryLe_iff, entryLe_iff]
    omega
  have h := List.sorted_mergeSort htrans htotal es
  exact h.imp (fun hab => (entryLe_iff _ _).mp hab)

theorem mem_catMap (f : String → List Entry) (l : List String) (e : Entry) :
    e ∈ catMap f l ↔ ∃ t ∈ l, e ∈ f t := by
  induction l with
  | nil => simp [catMap]
  | cons t rest ih =>
    rw [catMap, List.mem_append, ih]
    constructor
    · rintro (he | ⟨t', ht', he⟩)
      · exact ⟨t, by simp, he⟩
      · exact ⟨t', by simp [ht'], he⟩
    · rintro ⟨t', ht', he⟩
      rcases List.mem_cons.mp ht' with rfl | ht'
      · exact Or.inl he
      · exact Or.inr ⟨t', ht', he⟩

theorem catMap_filter (p : Entry → Bool) (f : String → List Entry) (l : List String) :
    (catMap f l).filter p = catMap (fun t => (f t).filter p) l := by
  induction l with
  | nil => rfl
  | cons t rest ih =>
    rw [catMap, List.filter_append, ih]
    rfl

theorem catMap_map (g : Entry → Entry) (f : String → List Entry) (l : List String) :
    (catMap f l).map g = catMap (fun t => (f t).map g) l := by
  induction l with
  | nil => rfl
  | cons t rest ih =>
    rw [catMap, List.map_append, ih]
    rfl

theorem sumD_append (a b : List Entry) : sumDeltas (a ++ b) = sumDeltas a + sumDeltas b := by
  simp [sumDeltas]

theorem sumD_catMap (f : String → List Entry) (l : List String) :
    sumDeltas (catMap f l) = (l.map (fun t => sumDeltas (f t))).sum := by
  induction l with
  | nil => rfl
  | cons t rest ih =>
    rw [catMap, List.map_cons, List.sum_cons, ← ih, sumD_append]

theorem catMap_any_tag_empty (f : String → List Entry) (tags : List String) (t : String)
    (hf : ∀ t' ∈ tags, ∀ e ∈ f t', e.tag = t') (hft : f t = []) :
    (catMap f tags).any (fun e => decide (e.tag = t)) = false := by
  rw [List.any_eq_false]
  intro e he
  simp only [decide_eq_true_eq]
  intro het
  obtain ⟨t', ht', he'⟩ := (mem_catMap f tags e).mp he
  have : e.tag = t' := hf t' ht' e he'
  rw [this] at het
  subst het
  rw [hft] at he'
  cases he'

theorem catMap_any_tag_nonempty (f : String → List Entry) (tags : List String) (t : String)
    (hf : ∀ t' ∈ tags, ∀ e ∈ f t', e.tag = t') (ht : t ∈ tags) (hft : f t ≠ []) :
    (catMap f tags).any (fun e => decide (e.tag = t)) = true := by
  obtain ⟨e₀, l₀, hfc⟩ : ∃ e₀ l₀, f t = e₀ :: l₀ := by
    cases hc : f t with
    | nil => exact absurd hc hft
    | cons a b => exact ⟨a, b, rfl⟩
  rw [List.any_eq_true]
  refine ⟨e₀, (mem_catMap f tags e₀).mpr ⟨t, ht, by rw [hfc]; simp⟩, ?_⟩
  simp only [decide_eq_true_eq]
  exact hf t ht e₀ (by rw [hfc]; simp)

theorem countP_keyed_single {κ : Type} [DecidableEq κ] (k : Entry → κ) (x : κ)
    (l : List Entry) (hnd : (l.map k).Nodup) :
    l.countP (fun e => decide (k e = x)) =
      if l.any (fun e => decide (k e = x)) then 1 else 0 := by
  rw [List.countP_eq_length_filter, filter_eq_find_toList k x l hnd]
  cases hf : l.find? (fun e => decide (k e = x)) with
  | none =>
    have ha : l.any (fun e => decide (k e = x)) = false := by
      rw [List.any_eq_false]
      exact List.find?_eq_none.mp hf
    rw [ha]
    rfl
  | some e =>
    have hmem := List.mem_of_find?_eq_some hf
    have hpe := List.find?_some hf
    have ha : l.any (fun e' => decide (k e' = x)) = true := by
      rw [List.any_eq_true]
      exact ⟨e, hmem, hpe⟩
    rw [ha]
    rfl

theorem countP_value_map_aD (v : String) (tags : List String) (l : List Entry) :
    (l.map (assignDelta tags)).countP (fun e => decide (e.value = v)) =
      l.countP (fun e => decide (e.value = v)) := by
  rw [List.countP_map]
  apply List.countP_congr
  intro e _
  show (decide ((assignDelta tags e).value = v) = true) ↔ _
  rw [assignDelta, assignDeltaFrom_value]

theorem filter_value_map_aD (v : String) (tags : List String) (l : List Entry) :
    (l.map (assignDelta tags)).filter (fun e => decide (e.value = v)) =
      (l.filter (fun e => decide (e.value = v))).map (assignDelta tags) := by
  rw [List.filter_map]
  congr 1
  apply List.filter_congr
  intro e _
  show decide ((assignDelta tags e).value = v) = _
  rw [decide_eq_decide, assignDelta, assignDeltaFrom_value]

theorem sumDMap_or_disjoint (g : Entry → Entry) (p q : Entry → Bool) (l : List Entry)
    (h : ∀ x ∈ l, ¬(p x = true ∧ q x = true)) :
    sumDeltas ((l.filter (fun x => p x || q x)).map g) =
      sumDeltas ((l.filter p).map g) + sumDeltas ((l.filter q).map g) := by
  induction l with
  | nil => rfl
  | cons x rest ih =>
    have hrest := ih (fun y hy => h y (by simp [hy]))
    rw [List.filter_cons, List.filter_cons, List.filter_cons]
    by_cases hp : p x = true
    · have hq : ¬ q x = true := fun hq => h x (by simp) ⟨hp, hq⟩
      rw [if_pos (by simp [hp]), if_pos hp, if_neg hq]
      simp only [List.map_cons, sumDeltas, List.sum_cons] at hrest ⊢
      omega
    · by_cases hq : q x = true
      · rw [if_pos (by simp [hp, hq]), if_neg hp, if_pos hq]
        simp only [List.map_cons, sumDeltas, List.sum_cons] at hrest ⊢
        omega
      · rw [if_neg (by simp [hp, hq]), if_neg hp, if_neg hq]
        exact hrest

theorem any_pointwise {α : Type} (p q : α → Bool) (l : List α) (h : ∀ x ∈ l, p x = q x) :
    l.any p = l.any q := by
  induction l with
  | nil => rfl
  | cons x rest ih =>
    rw [List.any_cons, List.any_cons, h x (by simp),
      ih (fun y hy => h y (by simp [hy]))]

theorem find?_pointwise {α : Type} (p q : α → Bool) (l : List α) (h : ∀ x ∈ l, p x = q x) :
    l.find? p = l.find? q := by
  induction l with
  | nil => rfl
  | cons x rest ih =>
    rw [List.find?_cons, List.find?_cons, h x (by simp),
      ih (fun y hy => h y (by simp [hy]))]

theorem pair_pred_eq (v t : String) (e : Entry) :
    (decide (e.tag = t) && decide (e.value = v)) = decide (pairKey e = (v, t)) := by
  by_cases h1 : e.tag = t
  · by_cases h2 : e.value = v
    · simp [pairKey, Prod.ext_iff, h1, h2]
    · simp [pairKey, Prod.ext_iff, h1, h2]
  · by_cases h2 : e.value = v
    · simp [pairKey, Prod.ext_iff, h1, h2]
    · simp [pairKey, Prod.ext_iff, h1, h2]

theorem vte_of_empty (s : TS) (t : String) (hft : cachedEntries s.cache t = []) :
    visibleTagEntries s t = s.storage.filter (fun e => decide (e.tag = t)) := by
  rw [visibleTagEntries, if_pos hft]

theorem vte_of_nonempty (s : TS) (t : String) (hft : cachedEntries s.cache t ≠ []) :
    visibleTagEntries s t = cachedEntries s.cache t := by
  rw [visibleTagEntries, if_neg hft]

theorem cached_count_term (s : TS) (v t : String) (hwfc : CacheWF s.cache)
    (hft : cachedEntries s.cache t ≠ []) :
    (cachedEntries s.cache t).countP (fun e => decide (e.value = v)) =
      if matchesTag s v t then 1 else 0 := by
  have hnd : ((cachedEntries s.cache t).map (fun e => e.value)).Nodup := by
    have h := cachedEntries_nodup s.cache t hwfc
    simpa [mapEntries] using h
  rw [countP_keyed_single (fun e => e.value) v _ hnd, matchesTag, vte_of_nonempty s t hft]

theorem cached_delta_term (s : TS) (tags : List String) (v t : String)
    (hwfc : CacheWF s.cache) (ht : t ∈ tags) (hft : cachedEntries s.cache t ≠ []) :
    sumDeltas (((cachedEntries s.cache t).filter (fun e => decide (e.value = v))).map
        (assignDelta tags)) =
      if matchesTag s v t then (((tags.indexOf t : Int) - visibleTagIndex s v t).natAbs : Int)
      else 0 := by
  have hnd : ((cachedEntries s.cache t).map (fun e => e.value)).Nodup := by
    have h := cachedEntries_nodup s.cache t hwfc
    simpa [mapEntries] using h
  rw [filter_eq_find_toList (fun e => e.value) v _ hnd]
  cases hf : (cachedEntries s.cache t).find? (fun e => decide (e.value = v)) with
  | none =>
    have hm : matchesTag s v t = false := by
      rw [matchesTag, vte_of_nonempty s t hft, List.any_eq_false]
      exact List.find?_eq_none.mp hf
    rw [hm]
    rfl
  | some e₀ =>
    have hmem := List.mem_of_find?_eq_some hf
    have htg : e₀.tag = t := cachedEntries_tag s.cache t e₀ hmem
    have hpe0 := List.find?_some hf
    have hm : matchesTag s v t = true := by
      rw [matchesTag, vte_of_nonempty s t hft, List.any_eq_true]
      exact ⟨e₀, hmem, hpe0⟩
    have hvi : visibleTagIndex s v t = e₀.tagIndex := by
      rw [visibleTagIndex, vte_of_nonempty s t hft, hf]
    rw [hm, if_pos rfl, hvi]
    show sumDeltas [assignDelta tags e₀] = _
    rw [assignDelta, assignDeltaFrom]
    rw [if_pos (by rw [htg]; exact ht), htg]
    simp [sumDeltas]

theorem stored_count_term (s : TS) (v t : String) (hwfs : StorageWF s.storage)
    (hft : cachedEntries s.cache t = []) :
    s.storage.countP (fun e => decide (e.tag = t) && decide (e.value = v)) =
      if matchesTag s v t then 1 else 0 := by
  rw [List.countP_congr (fun e _ => by rw [pair_pred_eq v t e])]
  rw [countP_keyed_single pairKey (v, t) _ hwfs]
  have hany : s.storage.any (fun e => decide (pairKey e = (v, t))) = matchesTag s v t := by
    rw [matchesTag, vte_of_empty s t hft, List.any_filter]
    exact (any_pointwise _ _ s.storage (fun e _ => (pair_pred_eq v t e))).symm
  rw [hany]

theorem stored_delta_term (s : TS) (tags : List String) (v t : String)
    (hwfs : StorageWF s.storage) (ht : t ∈ tags) (hft : cachedEntries s.cache t = []) :
    sumDeltas ((s.storage.filter (fun e => decide (e.tag = t) && decide (e.value = v))).map
        (assignDelta tags)) =
      if matchesTag s v t then (((tags.indexOf t : Int) - visibleTagIndex s v t).natAbs : Int)
      else 0 := by
  rw [List.filter_congr (fun e _ => pair_pred_eq v t e)]
  rw [filter_eq_find_toList pairKey (v, t) _ hwfs]
  cases hf : s.storage.find? (fun e => decide (pairKey e = (v, t))) with
  | none =>
    have hm : matchesTag s v t = false := by
      rw [matchesTag, vte_of_empty s t hft, List.any_filter, List.any_eq_false]
      intro e he
      rw [pair_pred_eq v t e]
      exact List.find?_eq_none.mp hf e he
    rw [hm]
    rfl
  | some e₀ =>
    have hmem := List.mem_of_find?_eq_some hf
    have hpe := List.find?_some hf
    simp only [decide_eq_true_eq, pairKey, Prod.mk.injEq] at hpe
    obtain ⟨hval, htg⟩ := hpe
    have hm : matchesTag s v t = true := by
      rw [matchesTag, vte_of_empty s t hft, List.any_filter, List.any_eq_true]
      exact ⟨e₀, hmem, by rw [pair_pred_eq v t e₀]; simp [pairKey, Prod.ext_iff, hval, htg]⟩
    have hvi : visibleTagIndex s v t = e₀.tagIndex := by
      rw [visibleTagIndex, vte_of_empty s t hft, find?_filter_comm]
      rw [find?_pointwise _ _ s.storage (fun e _ => pair_pred_eq v t e), hf]
    rw [hm, if_pos rfl, hvi]
    show sumDeltas [assignDelta tags e₀] = _
    rw [assignDelta, assignDeltaFrom]
    rw [if_pos (by rw [htg]; exact ht), htg]
    simp [sumDeltas]

theorem storage_count_split (ss : List Entry) (v : String) :
    ∀ (nc : List String), nc.Nodup →
    ss.countP (fun e => decide (e.value = v) && decide (e.tag ∈ nc)) =
      (nc.map (fun t => ss.countP (fun e => decide (e.tag = t) && decide (e.value = v)))).sum := by
  intro nc
  induction nc with
  | nil =>
    intro _
    rw [List.map_nil, List.sum_nil, List.countP_eq_zero]
    intro e _
    simp
  | cons t rest ih =>
    intro hnd
    have htr : t ∉ rest := (List.nodup_cons.mp hnd).1
    have hsplit : ∀ e ∈ ss, ((fun e => decide (e.value = v) && decide (e.tag ∈ t :: rest)) e = true) ↔
        ((fun e => (decide (e.value = v) && decide (e.tag = t)) ||
          (decide (e.value = v) && decide (e.tag ∈ rest))) e = true) := by
      intro e _
      by_cases h1 : e.value = v
      · by_cases h2 : e.tag = t
        · simp [h1, h2]
        · by_cases h3 : e.tag ∈ rest <;> simp [h1, h2, h3]
      · simp [h1]
    rw [List.countP_congr hsplit]
    rw [countP_or_disjoint _ _ ss (by
      intro e _ hcontra
      obtain ⟨ha, hb⟩ := hcontra
      simp only [Bool.and_eq_true, decide_eq_true_eq] at ha hb
      exact htr (ha.2 ▸ hb.2))]
    rw [List.map_cons, List.sum_cons, ← ih (List.nodup_cons.mp hnd).2]
    congr 1
    apply List.countP_congr
    intro e _
    by_cases h1 : e.value = v
    · by_cases h2 : e.tag = t <;> simp [h1, h2]
    · simp [h1]

theorem storage_delta_split (ss : List Entry) (v : String) (tags : List String) :
    ∀ (nc : List String), nc.Nodup →
    sumDeltas ((ss.filter (fun e => decide (e.value = v) && decide (e.tag ∈ nc))).map
        (assignDelta tags)) =
      (nc.map (fun t => sumDeltas ((ss.filter
        (fun e => decide (e.tag = t) && decide (e.value = v))).map (assignDelta tags)))).sum := by
  intro nc
  induction nc with
  | nil =>
    intro _
    rw [List.map_nil, List.sum_nil]
    have hnil : ss.filter (fun e => decide (e.value = v) && decide (e.tag ∈ ([] : List String))) = [] := by
      rw [List.filter_eq_nil_iff]
      intro e _
      simp
    rw [hnil]
    rfl
  | cons t rest ih =>
    intro hnd
    have htr : t ∉ rest := (List.nodup_cons.mp hnd).1
    have hsplit : ∀ e ∈ ss, ((fun e => decide (e.value = v) && decide (e.tag ∈ t :: rest)) e) =
        ((fun e => (decide (e.value = v) && decide (e.tag = t)) ||
          (decide (e.value = v) && decide (e.tag ∈ rest))) e) := by
      intro e _
      by_cases h1 : e.value = v
      · by_cases h2 : e.tag = t
        · simp [h1, h2]
        · by_cases h3 : e.tag ∈ rest <;> simp [h1, h2, h3]
      · simp [h1]
    rw [List.filter_congr hsplit]
    rw [sumDMap_or_disjoint (assignDelta tags) _ _ ss (by
      intro e _ hcontra
      obtain ⟨ha, hb⟩ := hcontra
      simp only [Bool.and_eq_true, decide_eq_true_eq] at ha hb
      exact htr (ha.2 ▸ hb.2))]
    rw [List.map_cons, List.sum_cons, ← ih (List.nodup_cons.mp hnd).2]
    congr 2
    apply congrArg
    apply List.filter_congr
    intro e _
    by_cases h1 : e.value = v
    · by_cases h2 : e.tag = t <;> simp [h1, h2]
    · simp [h1]

/-- Entry list that `getAll` deduplicates and sorts: the cached entries of the
queried tags followed by the storage entries of the not-cached tags, each with
its request index delta assigned. -/
def queryMerged (s : TS) (tags : List String) : List Entry :=
  (setRequestIndex tags (catMap (cachedEntries s.cache) tags)).1 ++
    (setRequestIndex tags (storageGet
      (setRequestIndex tags (catMap (cachedEntries s.cache) tags)).2 s.storage)).1

theorem queryMerged_stats (s : TS) (tags : List String) (v : String)
    (hnd : tags.Nodup) (hwfc : CacheWF s.cache) (hwfs : StorageWF s.storage) :
    (queryMerged s tags).countP (fun e => decide (e.value = v)) =
      tags.countP (fun t => matchesTag s v t) ∧
    sumDeltas ((queryMerged s tags).filter (fun e => decide (e.value = v))) =
      ((tags.filter (fun t => matchesTag s v t)).map
        (fun t => (((tags.indexOf t : Int) - visibleTagIndex s v t).natAbs : Int))).sum := by
  have hcoherent : ∀ t' ∈ tags, ∀ e ∈ cachedEntries s.cache t', e.tag = t' :=
    fun t' _ e he => cachedEntries_tag s.cache t' e he
  have hfst1 : (setRequestIndex tags (catMap (cachedEntries s.cache) tags)).1 =
      (catMap (cachedEntries s.cache) tags).map (assignDelta tags) :=
    setRequestIndexFrom_fst tags hnd 0 _
  have hnotf : (setRequestIndex tags (catMap (cachedEntries s.cache) tags)).2 =
      tags.filter (fun t => decide (cachedEntries s.cache t = [])) := by
    rw [setRequestIndex, setRequestIndexFrom_snd]
    apply List.filter_congr
    intro t ht
    by_cases hft : cachedEntries s.cache t = []
    · rw [catMap_any_tag_empty _ tags t hcoherent hft]
      simp [hft]
    · rw [catMap_any_tag_nonempty _ tags t hcoherent ht hft]
      simp [hft]
  have hncnd : (tags.filter (fun t => decide (cachedEntries s.cache t = []))).Nodup :=
    hnd.filter _
  have hstored : storageGet (setRequestIndex tags (catMap (cachedEntries s.cache) tags)).2
      s.storage = s.storage.filter (fun e =>
        decide (e.tag ∈ tags.filter (fun t => decide (cachedEntries s.cache t = [])))) := by
    rw [hnotf, storageGet_eq_filter _ _ hncnd]
  have hfst2 : (setRequestIndex tags (storageGet
      (setRequestIndex tags (catMap (cachedEntries s.cache) tags)).2 s.storage)).1 =
      (s.storage.filter (fun e =>
        decide (e.tag ∈ tags.filter (fun t => decide (cachedEntries s.cache t = []))))).map
        (assignDelta tags) := by
    rw [hstored]
    exact setRequestIndexFrom_fst tags hnd 0 _
  constructor
  · rw [queryMerged, List.countP_append, hfst1, hfst2]
    rw [countP_value_map_aD, countP_value_map_aD, countP_catMap]
    rw [List.countP_filter]
    rw [storage_count_split s.storage v _ hncnd]
    rw [sum_filter_if (fun t => decide (cachedEntries s.cache t = []))
      (fun t => s.storage.countP (fun e => decide (e.tag = t) && decide (e.value = v))) tags]
    rw [← sum_map_add]
    rw [← sum_indicator_count (fun t => matchesTag s v t) tags]
    apply congrArg
    apply List.map_congr_left
    intro t ht
    by_cases hft : cachedEntries s.cache t = []
    · rw [if_pos (by simpa using hft)]
      have h0 : (cachedEntries s.cache t).countP (fun e => decide (e.value = v)) = 0 := by
        rw [hft]
        rfl
      rw [h0, stored_count_term s v t hwfs hft, Nat.zero_add]
    · rw [if_neg (by simpa using hft)]
      rw [cached_count_term s v t hwfc hft, Nat.add_zero]
  · rw [queryMerged, List.filter_append, sumD_append, hfst1, hfst2]
    rw [filter_value_map_aD, filter_value_map_aD]
    rw [catMap_filter, catMap_map, sumD_catMap]
    rw [List.filter_filter]
    rw [storage_delta_split s.storage v tags _ hncnd]
    rw [sum_filter_if (fun t => decide (cachedEntries s.cache t = []))
      (fun t => sumDeltas ((s.storage.filter
        (fun e => decide (e.tag = t) && decide (e.value = v))).map (assignDelta tags))) tags]
    rw [← sum_map_add]
    rw [sum_filter_if (fun t => matchesTag s v t)
      (fun t => (((tags.indexOf t : Int) - visibleTagIndex s v t).natAbs : Int)) tags]
    apply congrArg
    apply List.map_congr_left
    intro t ht
    by_cases hft : cachedEntries s.cache t = []
    · rw [if_pos (by simpa using hft)]
      have h0 : sumDeltas (((cachedEntries s.cache t).filter
          (fun e => decide (e.value = v))).map (assignDelta tags)) = 0 := by
        rw [hft]
        rfl
      rw [h0, stored_delta_term s tags v t hwfs ht hft, zero_add]
    · rw [if_neg (by simpa using hft)]
      rw [cached_delta_term s tags v t hwfc ht hft, add_zero]

theorem tsGetAll_ok_shape (s : TS) (tags : List String) (out : List Entry) (c' : BlobCache)
    (hwfc : CacheWF s.cache) (hok : tsGetAll s tags = (.ok out, c')) :
    out = sortEntries (uniqueValues (queryMerged s tags)) := by
  have hc := cacheGet_eq_ok s.cache tags hwfc
  unfold tsGetAll getAllW at hok
  rw [hc] at hok
  simp only [storageGetE] at hok
  rcases hw : warmUp cacheSet s.cache (storageGet
      (setRequestIndex tags (catMap (cachedEntries s.cache) tags)).2 s.storage) with ⟨fst, cs'⟩
  rcases fst with e | u
  · rw [hw] at hok
    simp at hok
  · rw [hw] at hok
    simp only [Prod.mk.injEq] at hok
    have h1 := hok.1
    rw [Except.ok.injEq] at h1
    rw [← h1]
    rfl

/-- Claim C1: a successful getAll over duplicate-free query tags, with the tag
cache and the storage contents well-formed, returns the deduplicated values —
no value twice — sorted descending by match count with ties broken ascending
by accumulated index delta, where a value's accumulated index delta is the sum
over its matched query tags of the absolute difference between the tag's query
position and the tag index stored for the value under that tag; GetAll returns
exactly these values in this order. -/
theorem claim1_ranked_dedup_output (s : TS) (tags : List String) (out : List Entry)
    (c' : BlobCache) (hnd : tags.Nodup) (hwfc : CacheWF s.cache) (hwfs : StorageWF s.storage)
    (hok : tsGetAll s tags = (.ok out, c')) :
    (mapEntries out).Nodup ∧
    out.Pairwise (fun a b =>
      a.requestTagMatch > b.requestTagMatch ∨
        (a.requestTagMatch = b.requestTagMatch ∧
          a.requestIndexDelta ≤ b.requestIndexDelta)) ∧
    (∀ u ∈ out, u.requestIndexDelta =
      ((tags.filter (fun t => matchesTag s u.value t)).map
        (fun t => (((tags.indexOf t : Int) - visibleTagIndex s u.value t).natAbs : Int))).sum) ∧
    tsGetAllValues s tags = .ok (mapEntries out) := by
  have hshape := tsGetAll_ok_shape s tags out c' hwfc hok
  have hperm : (sortEntries (uniqueValues (queryMerged s tags))).Perm
      (uniqueValues (queryMerged s tags)) := sortEntries_perm _
  obtain ⟨hndu, hmemiff, hstats⟩ := uniqueValues_inv (queryMerged s tags)
  refine ⟨?_, ?_, ?_, ?_⟩
  · rw [hshape]
    show ((sortEntries (uniqueValues (queryMerged s tags))).map (fun e => e.value)).Nodup
    exact ((hperm.map (fun e => e.value)).nodup_iff).mpr (by simpa [mapEntries] using hndu)
  · rw [hshape]
    refine (sortEntries_pairwise _).imp ?_
    intro a b h
    rcases h with h | ⟨h1, h2⟩
    · exact Or.inl h
    · exact Or.inr ⟨h1.symm, h2⟩
  · intro u hu
    have hu' : u ∈ uniqueValues (queryMerged s tags) := hperm.mem_iff.mp (hshape ▸ hu)
    obtain ⟨_, hsum⟩ := hstats u hu'
    rw [hsum, (queryMerged_stats s tags u.value hnd hwfc hwfs).2]
  · unfold tsGetAllValues
    rw [hok]

/-- Concrete state of the C1 and C2 witnesses: u1 and u2 cached under tag
"bar", u1 stored under tag "foo". -/
def wTS : TS :=
  ⟨⟨[("bar", [{ key := ["u1"], val := "1" }, { key := ["u2"], val := "0" }])], fun _ => true⟩,
    [{ value := "u1", tag := "foo", tagIndex := 0 }]⟩

/-- Ranked entry list the witness query returns. -/
def wOut : List Entry :=
  [{ value := "u1", tag := "bar", tagIndex := 1, requestTagMatch := 2, requestIndexDelta := 0 },
   { value := "u2", tag := "bar", tagIndex := 0, requestTagMatch := 1, requestIndexDelta := 1 }]

/-- Cache state after the witness query warmed tag "foo" up. -/
def wCacheAfter : BlobCache :=
  ⟨[("foo", [{ key := ["u1"], val := itoa 0 }]),
    ("bar", [{ key := ["u1"], val := "1" }, { key := ["u2"], val := "0" }])], fun _ => true⟩

theorem wOut_sorted : sortEntries wOut = wOut := by
  simp [sortEntries, wOut, List.mergeSort, List.merge, entryLess]

theorem wTS_getAll : tsGetAll wTS ["foo", "bar"] = (.ok wOut, wCacheAfter) := by
  have h1 : tsGetAll wTS ["foo", "bar"] = (.ok (sortEntries wOut), wCacheAfter) := rfl
  rw [h1, wOut_sorted]

theorem wTS_storageWF : StorageWF wTS.storage := by
  show (wTS.storage.map pairKey).Nodup
  decide

theorem wTS_cacheWF : CacheWF wTS.cache := by
  intro t recs h
  by_cases hbar : "bar" = t
  · subst hbar
    cases h
    exact ⟨[{ value := "u1", tag := "bar", tagIndex := 1 },
      { value := "u2", tag := "bar", tagIndex := 0 }], rfl, by decide⟩
  · have hnone : blobGet wTS.cache t = none := by
      simp [wTS, blobGet, List.find?, hbar]
    rw [hnone] at h
    cases h

/-- Witness for C1: one value cached under the second query tag together with
a competitor, and fetched from storage for the first; the call returns both
values deduplicated, best match first, with the claimed index deltas. -/
theorem claim1_witness :
    (mapEntries wOut).Nodup ∧
    wOut.Pairwise (fun a b =>
      a.requestTagMatch > b.requestTagMatch ∨
        (a.requestTagMatch = b.requestTagMatch ∧
          a.requestIndexDelta ≤ b.requestIndexDelta)) ∧
    (∀ u ∈ wOut, u.requestIndexDelta =
      ((((["foo", "bar"] : List String).filter (fun t => matchesTag wTS u.value t))).map
        (fun t => ((((["foo", "bar"] : List String).indexOf t : Int) -
          visibleTagIndex wTS u.value t).natAbs : Int))).sum) ∧
    tsGetAllValues wTS ["foo", "bar"] = .ok (mapEntries wOut) :=
  claim1_ranked_dedup_output wTS ["foo", "bar"] wOut wCacheAfter
    (by decide) wTS_cacheWF wTS_storageWF wTS_getAll

/-- Claim C2: after a successful getAll (hence after Get or GetAll) over
duplicate-free query tags, with the tag cache and the storage contents
well-formed, a value appears in the result exactly when it shares at least one
of the query's tags, and its matchCount equals N, the number of distinct query
tags the value matched. -/
theorem claim2_matchCount_eq_shared_tags (s : TS) (tags : List String) (out : List Entry)
    (c' : BlobCache) (hnd : tags.Nodup) (hwfc : CacheWF s.cache) (hwfs : StorageWF s.storage)
    (hok : tsGetAll s tags = (.ok out, c')) :
    ∀ v : String,
      ((∃ u ∈ out, u.value = v) ↔ 0 < tags.countP (fun t => matchesTag s v t)) ∧
      ∀ u ∈ out, u.value = v →
        u.requestTagMatch = (tags.countP (fun t => matchesTag s v t) : Int) := by
  have hshape := tsGetAll_ok_shape s tags out c' hwfc hok
  have hperm : (sortEntries (uniqueValues (queryMerged s tags))).Perm
      (uniqueValues (queryMerged s tags)) := sortEntries_perm _
  obtain ⟨hndu, hmemiff, hstats⟩ := uniqueValues_inv (queryMerged s tags)
  intro v
  have hcount := (queryMerged_stats s tags v hnd hwfc hwfs).1
  constructor
  · constructor
    · rintro ⟨u, hu, rfl⟩
      have hu' : u ∈ uniqueValues (queryMerged s tags) := hperm.mem_iff.mp (hshape ▸ hu)
      have hv : u.value ∈ mapEntries (queryMerged s tags) :=
        (hmemiff u.value).mp (List.mem_map_of_mem _ hu')
      obtain ⟨e, he, hev⟩ := List.mem_map.mp hv
      rw [← hcount]
      rw [List.countP_pos]
      exact ⟨e, he, by simpa using hev⟩
    · intro hpos
      rw [← hcount, List.countP_pos] at hpos
      obtain ⟨e, he, hev⟩ := hpos
      simp only [decide_eq_true_eq] at hev
      have hv : v ∈ mapEntries (uniqueValues (queryMerged s tags)) :=
        (hmemiff v).mpr (List.mem_map.mpr ⟨e, he, hev⟩)
      obtain ⟨u, hu, huv⟩ := List.mem_map.mp hv
      refine ⟨u, ?_, huv⟩
      rw [hshape]
      exact hperm.mem_iff.mpr hu
  · intro u hu huv
    subst huv
    have hu' : u ∈ uniqueValues (queryMerged s tags) := hperm.mem_iff.mp (hshape ▸ hu)
    obtain ⟨hcount', _⟩ := hstats u hu'
    rw [hcount', hcount]

/-- Witness for C2 on the same concrete state as C1: value u1 shares two query
tags and has matchCount 2 in the result. -/
theorem claim2_witness :
    ((∃ u ∈ wOut, u.value = "u1") ↔
      0 < (["foo", "bar"] : List String).countP (fun t => matchesTag wTS "u1" t)) ∧
    ∀ u ∈ wOut, u.value = "u1" →
      u.requestTagMatch =
        (((["foo", "bar"] : List String).countP (fun t => matchesTag wTS "u1" t)) : Int) :=
  claim2_matchCount_eq_shared_tags wTS ["foo", "bar"] wOut wCacheAfter
    (by decide) wTS_cacheWF wTS_storageWF wTS_getAll "u1"

end Tagstash
